import Mathlib

/-!
Verification development for the on-demand, chunked, lazily-evaluated array
engine with a global result cache that backs nbodykit's catalog-style data
sources.  The repository snapshot only documents this engine (the dask-based
column store, `GlobalCache`, `CatalogSource.compute`); the engine itself is
not part of the snapshot, so every definition below is modelled from the
specification text and marked as such.
-/

namespace NbodykitModel

/-- Modelled from the spec: scalar dtypes carried by task-graph nodes
(the snapshot does not contain the dtype system, only the documentation
mentioning `dtype='f8'` columns). -/
inductive DType where
  | i64
  | f64
deriving DecidableEq

/-- Numeric tag for a dtype, used by the structural fingerprint. -/
def DType.code : DType → Nat
  | .i64 => 0
  | .f64 => 1

/-- Modelled from the spec: elementwise binary operation kinds. -/
inductive BinOp where
  | add
  | sub
  | mul
  | div
deriving DecidableEq

/-- Numeric tag for a binary operation, used by the structural fingerprint. -/
def BinOp.code : BinOp → Nat
  | .add => 0
  | .sub => 1
  | .mul => 2
  | .div => 3

/-- Modelled from the spec: reduction kinds (`min max sum` over the leading
axis). -/
inductive RedOp where
  | rsum
  | rmin
  | rmax
deriving DecidableEq

/-- Numeric tag for a reduction kind, used by the structural fingerprint. -/
def RedOp.code : RedOp → Nat
  | .rsum => 0
  | .rmin => 1
  | .rmax => 2

/-- Modelled from the spec: a task-graph node.  A deferred operation
(elementwise map, reduction, slice, concatenate, leaf-read) over input
nodes; nodes are immutable and form a DAG by owning their inputs. -/
inductive TaskNode where
  | read (file a b : Nat) (dt : DType)
  | map2 (op : BinOp) (x y : TaskNode)
  | mapScalar (op : BinOp) (k : Int) (x : TaskNode)
  | reduce (op : RedOp) (x : TaskNode)
  | concat (x y : TaskNode)
  | slice (i j : Nat) (x : TaskNode)
deriving DecidableEq

/-- Injective coding of an integer parameter into the fingerprint space. -/
def intCode (k : Int) : Nat := Nat.pair k.toNat (-k).toNat

/-- Modelled from the spec: the deterministic structural fingerprint of a
node, derived from the operation kind, its parameters and the fingerprints
of its inputs (structural hashing, collision-free by construction). -/
def fingerprint : TaskNode → Nat
  | .read f a b dt => Nat.pair 0 (Nat.pair f (Nat.pair a (Nat.pair b dt.code)))
  | .map2 op x y => Nat.pair 1 (Nat.pair op.code (Nat.pair (fingerprint x) (fingerprint y)))
  | .mapScalar op k x => Nat.pair 2 (Nat.pair op.code (Nat.pair (intCode k) (fingerprint x)))
  | .reduce op x => Nat.pair 3 (Nat.pair op.code (fingerprint x))
  | .concat x y => Nat.pair 4 (Nat.pair (fingerprint x) (fingerprint y))
  | .slice i j x => Nat.pair 5 (Nat.pair i (Nat.pair j (fingerprint x)))

/-- A realized chunk payload: the ordered chunks of a column segment, each
chunk a list of (integer-modelled) scalars. -/
abbrev Chunks := List (List Int)

/-- Total number of stored scalars of a realized payload (its byte size in
the model). -/
def chunksSize (v : Chunks) : Nat := (v.map List.length).sum

/-- Modelled from the spec: the storage backend interface
(`read_range(file_id, start, end)`), a map from file identifiers to the
modelled column's rows, `none` for a missing file. -/
abbrev Storage := Nat → Option (List Int)

/-- Modelled from the spec: `read_range` — reads rows `[a, b)` of file `f`,
failing on a missing file or an out-of-bounds range. -/
def readRange (st : Storage) (f a b : Nat) : Option (List Int) :=
  match st f with
  | none => none
  | some rows => if a ≤ b ∧ b ≤ rows.length then some ((rows.drop a).take (b - a)) else none

/-- Tag identifying which operation produced a computation error. -/
inductive OpTag where
  | divZero
  | emptyMin
  | emptyMax
deriving DecidableEq

/-- Modelled from the spec: evaluation errors — an I/O error tagged with the
offending file and range, or a computation error tagged with the node's
operation and fingerprint. -/
inductive EvalError where
  | ioError (file a b : Nat)
  | computationError (op : OpTag) (fp : Nat)
deriving DecidableEq

/-- Executes an elementwise binary operation on two scalars. -/
def binopFn : BinOp → Int → Int → Int
  | .add, x, y => x + y
  | .sub, x, y => x - y
  | .mul, x, y => x * y
  | .div, x, y => x / y

/-- Executes an elementwise node chunk-wise; division by a zero element is
the modelled operation failure (a result the dtype system forbids). -/
def execMap2 (op : BinOp) (fp : Nat) (va vb : Chunks) : Except EvalError Chunks :=
  if op = .div ∧ 0 ∈ vb.flatten then .error (.computationError .divZero fp)
  else .ok (List.zipWith (fun ca cb => List.zipWith (binopFn op) ca cb) va vb)

/-- Executes a scalar-parameter elementwise node chunk-wise. -/
def execScalar (op : BinOp) (k : Int) (fp : Nat) (v : Chunks) : Except EvalError Chunks :=
  if op = .div ∧ k = 0 then .error (.computationError .divZero fp)
  else .ok (v.map (List.map (fun x => binopFn op x k)))

/-- One step of a min/max-style reduction threaded through an optional
accumulator (so the empty reduction is detectable). -/
def redStep (f : Int → Int → Int) (acc : Option Int) (x : Int) : Option Int :=
  match acc with
  | none => some x
  | some a => some (f a x)

/-- Executes a reduction node.  Accumulation is a left fold over the chunks
in chunk-index order, each chunk folded left-to-right, so floating-point
style accumulation order is fixed and reproducible. -/
def execReduce (op : RedOp) (fp : Nat) (v : Chunks) : Except EvalError Chunks :=
  match op with
  | .rsum => .ok [[v.foldl (fun acc c => c.foldl (· + ·) acc) 0]]
  | .rmin =>
    match v.foldl (fun acc c => c.foldl (redStep min) acc) none with
    | none => .error (.computationError .emptyMin fp)
    | some m => .ok [[m]]
  | .rmax =>
    match v.foldl (fun acc c => c.foldl (redStep max) acc) none with
    | none => .error (.computationError .emptyMax fp)
    | some m => .ok [[m]]

/-- Modelled from the spec: the pure, cache-free denotation of a task-graph
node — what the evaluator must produce for it.  Leaf read failures surface
an I/O error tagged with the file and range; operation failures surface a
computation error tagged with the operation and the node's fingerprint. -/
def denote (st : Storage) : TaskNode → Except EvalError Chunks
  | .read f a b _ =>
    match readRange st f a b with
    | some rows => .ok [rows]
    | none => .error (.ioError f a b)
  | .map2 op x y =>
    match denote st x with
    | .error e => .error e
    | .ok va =>
      match denote st y with
      | .error e => .error e
      | .ok vb => execMap2 op (fingerprint (.map2 op x y)) va vb
  | .mapScalar op k x =>
    match denote st x with
    | .error e => .error e
    | .ok v => execScalar op k (fingerprint (.mapScalar op k x)) v
  | .reduce op x =>
    match denote st x with
    | .error e => .error e
    | .ok v => execReduce op (fingerprint (.reduce op x)) v
  | .concat x y =>
    match denote st x with
    | .error e => .error e
    | .ok va =>
      match denote st y with
      | .error e => .error e
      | .ok vb => .ok (va ++ vb)
  | .slice i j x =>
    match denote st x with
    | .error e => .error e
    | .ok v => .ok [((v.flatten.drop i).take (j - i))]

/-- Modelled from the spec: eagerly inferred chunk layout (chunk lengths in
order) of a node, available at graph-construction time without evaluation. -/
def nlayout : TaskNode → List Nat
  | .read _ a b _ => [b - a]
  | .map2 _ x _ => nlayout x
  | .mapScalar _ _ x => nlayout x
  | .reduce _ _ => [1]
  | .concat x y => nlayout x ++ nlayout y
  | .slice i j x => [min (j - i) ((nlayout x).sum - i)]

/-- Eagerly inferred total shape (leading-axis length) of a node. -/
def nshape (n : TaskNode) : Nat := (nlayout n).sum

/-- Number of array dimensions of a node's result: reductions collapse to a
zero-dimensional scalar, everything else stays one-dimensional. -/
def ndim : TaskNode → Nat
  | .reduce _ _ => 0
  | .map2 _ x _ => ndim x
  | .mapScalar _ _ x => ndim x
  | _ => 1

/-- Structural depth of a node, used to show a wrapper node is never equal
to the node it wraps. -/
def nodeDepth : TaskNode → Nat
  | .read _ _ _ _ => 0
  | .map2 _ x y => (max (nodeDepth x) (nodeDepth y)) + 1
  | .mapScalar _ _ x => nodeDepth x + 1
  | .reduce _ x => nodeDepth x + 1
  | .concat x y => (max (nodeDepth x) (nodeDepth y)) + 1
  | .slice _ _ x => nodeDepth x + 1

/-- Eagerly inferred dtype of a node. -/
def ndtype : TaskNode → DType
  | .read _ _ _ dt => dt
  | .map2 _ x _ => ndtype x
  | .mapScalar _ _ x => ndtype x
  | .reduce _ x => ndtype x
  | .concat x _ => ndtype x
  | .slice _ _ x => ndtype x

/-- Structural well-formedness: every elementwise combination joins operands
with identical chunk layouts (what the eager constructors guarantee). -/
def wfB : TaskNode → Bool
  | .read _ _ _ _ => true
  | .map2 _ x y => (decide (nlayout x = nlayout y)) && wfB x && wfB y
  | .mapScalar _ _ x => wfB x
  | .reduce _ x => wfB x
  | .concat x y => wfB x && wfB y
  | .slice _ _ x => wfB x

/-- All sub-node occurrences of a node, the node itself included. -/
def subnodesList : TaskNode → List TaskNode
  | n@(.read _ _ _ _) => [n]
  | n@(.map2 _ x y) => n :: (subnodesList x ++ subnodesList y)
  | n@(.mapScalar _ _ x) => n :: subnodesList x
  | n@(.reduce _ x) => n :: subnodesList x
  | n@(.concat x y) => n :: (subnodesList x ++ subnodesList y)
  | n@(.slice _ _ x) => n :: subnodesList x

/-- Size of a node's successfully denoted result (`0` for a failing node);
used to budget the cache so no eviction occurs. -/
def okSize (st : Storage) (m : TaskNode) : Nat :=
  match denote st m with
  | .ok v => chunksSize v
  | .error _ => 0

/-- Total result footprint of a graph: the cache budget that keeps every
sub-result resident. -/
def budgetOf (st : Storage) (n : TaskNode) : Nat :=
  ((subnodesList n).map (okSize st)).sum

/-- Modelled from the spec: a cache entry — fingerprint, byte payload, its
size, the logical access clock, and the logical insertion clock. -/
structure CacheEntry where
  fp : Nat
  bytes : Chunks
  sizeBytes : Nat
  lastAccess : Nat
  insertedAt : Nat
deriving DecidableEq

/-- Modelled from the spec: the process-wide `GlobalCache` — a byte
capacity, a logical clock, and the stored entries in insertion order. -/
structure GlobalCache where
  capacityBytes : Nat
  clock : Nat
  entries : List CacheEntry
deriving DecidableEq

/-- Total stored bytes of a list of entries. -/
def usageOf (es : List CacheEntry) : Nat := (es.map CacheEntry.sizeBytes).sum

/-- Current usage of a cache. -/
def usage (c : GlobalCache) : Nat := usageOf c.entries

/-- Recency update of the entry holding fingerprint `fp`. -/
def touch (fp now : Nat) (es : List CacheEntry) : List CacheEntry :=
  es.map fun e => if e.fp = fp then { e with lastAccess := now } else e

/-- Eviction order: least-recently-used first, ties broken by insertion
order (oldest first). -/
def lruLe (a b : CacheEntry) : Bool :=
  a.lastAccess < b.lastAccess ||
    (a.lastAccess = b.lastAccess && a.insertedAt ≤ b.insertedAt)

/-- Removes the first least-recently-used entry (ties broken by list
position, which tracks insertion order). -/
def removeLRU : List CacheEntry → List CacheEntry
  | [] => []
  | [_] => []
  | a :: b :: rest =>
    if (b :: rest).all (fun e => lruLe a e) then b :: rest
    else a :: removeLRU (b :: rest)

/-- Fuel-driven eviction loop; the fuel `es.length` always suffices since
each round removes one entry. -/
def evictLoop : Nat → Nat → List CacheEntry → List CacheEntry
  | 0, _, _ => []
  | fuel + 1, cap, es => if usageOf es ≤ cap then es else evictLoop fuel cap (removeLRU es)

/-- Modelled from the spec: evicts least-recently-used entries until the
usage fits under the capacity. -/
def evictUntil (cap : Nat) (es : List CacheEntry) : List CacheEntry :=
  evictLoop es.length cap es

/-- Modelled from the spec: `get(fingerprint)` — `none` on a miss; on a hit
returns the stored payload and updates the entry's recency. -/
def cacheGet (fp : Nat) (c : GlobalCache) : Option Chunks × GlobalCache :=
  match c.entries.find? (fun e => e.fp = fp) with
  | some e =>
    (some e.bytes, { c with clock := c.clock + 1, entries := touch fp c.clock c.entries })
  | none => (none, c)

/-- The entry a `put` inserts: payload stored under the fingerprint, sized,
stamped with the current logical clock as both access and insertion time. -/
def putEntry (fp : Nat) (v : Chunks) (c : GlobalCache) : CacheEntry :=
  { fp := fp, bytes := v, sizeBytes := chunksSize v, lastAccess := c.clock, insertedAt := c.clock }

/-- Modelled from the spec: `put(fingerprint, bytes)` — inserts or
overwrites; an entry larger than the whole capacity bypasses the cache
entirely instead of erroring; insertion then evicts until the usage fits. -/
def cachePut (fp : Nat) (v : Chunks) (c : GlobalCache) : GlobalCache :=
  if chunksSize v > c.capacityBytes then c
  else
    { c with
      clock := c.clock + 1
      entries := evictUntil c.capacityBytes
        ((c.entries.filter (fun e => e.fp ≠ fp)) ++ [putEntry fp v c]) }

/-- Modelled from the spec: `resize(new_capacity_bytes)` — sets the
capacity and evicts least-recently-used entries until the usage fits. -/
def cacheResize (newCap : Nat) (c : GlobalCache) : GlobalCache :=
  { c with capacityBytes := newCap, entries := evictUntil newCap c.entries }

/-- Modelled from the spec: `clear()` — removes all entries. -/
def cacheClear (c : GlobalCache) : GlobalCache :=
  { c with entries := [] }

/-- A fresh cache with the given capacity, as created at process start. -/
def freshCache (cap : Nat) : GlobalCache :=
  { capacityBytes := cap, clock := 0, entries := [] }

/-- Whether the cache holds an entry for the given fingerprint. -/
def containsFpB (c : GlobalCache) (fp : Nat) : Bool :=
  c.entries.any (fun e => e.fp = fp)

/-- A mutating-or-reading cache call, for stating invariants over arbitrary
call sequences. -/
inductive CacheOp where
  | put (fp : Nat) (v : Chunks)
  | get (fp : Nat)
  | resize (newCap : Nat)
  | clear

/-- Applies one cache call. -/
def applyCacheOp (c : GlobalCache) : CacheOp → GlobalCache
  | .put fp v => cachePut fp v c
  | .get fp => (cacheGet fp c).2
  | .resize newCap => cacheResize newCap c
  | .clear => cacheClear c

/-- Applies a sequence of cache calls in order. -/
def applyCacheOps (c : GlobalCache) (ops : List CacheOp) : GlobalCache :=
  ops.foldl applyCacheOp c

/-- The byte-budget invariant: stored bytes never exceed the capacity. -/
def cacheInv (c : GlobalCache) : Prop := usage c ≤ c.capacityBytes

/-- Entries listed in strictly increasing access order with the clock ahead
of every entry: the shape a put-only call sequence maintains. -/
def clockSorted (c : GlobalCache) : Prop :=
  c.entries.Pairwise (fun x y => x.lastAccess < y.lastAccess) ∧
    ∀ e ∈ c.entries, e.lastAccess < c.clock

/-- Evaluator state: the injected global cache plus the log of leaf-read
invocations (the leaf-read counter of the spec's testable properties). -/
structure EvalState where
  cache : GlobalCache
  log : List TaskNode
deriving DecidableEq

/-- Consult-then-store wrapper shared by every node evaluation: on a cache
hit reuse the stored chunks; on a miss run the computation and `put` the
result under the node's fingerprint.  Nothing is stored when the
computation fails. -/
def withCache (fp : Nat) (s : EvalState)
    (k : EvalState → Except EvalError (Chunks × EvalState)) :
    Except EvalError (Chunks × EvalState) :=
  match cacheGet fp s.cache with
  | (some v, c1) => .ok (v, { s with cache := c1 })
  | (none, c1) =>
    match k { s with cache := c1 } with
    | .error e => .error e
    | .ok (v, s2) => .ok (v, { s2 with cache := cachePut fp v s2.cache })

/-- Modelled from the spec: the evaluator — walks the graph in dependency
order, consults the cache by fingerprint, executes leaf reads and
operations, stores results back, and aborts the whole call on the first
error (nothing is cached for failed work). -/
def evalNode (st : Storage) : TaskNode → EvalState → Except EvalError (Chunks × EvalState)
  | .read f a b dt, s =>
    withCache (fingerprint (.read f a b dt)) s (fun s1 =>
      match readRange st f a b with
      | some rows => .ok ([rows], { s1 with log := s1.log ++ [TaskNode.read f a b dt] })
      | none => .error (.ioError f a b))
  | .map2 op x y, s =>
    withCache (fingerprint (.map2 op x y)) s (fun s1 =>
      match evalNode st x s1 with
      | .error e => .error e
      | .ok (va, s2) =>
        match evalNode st y s2 with
        | .error e => .error e
        | .ok (vb, s3) =>
          match execMap2 op (fingerprint (.map2 op x y)) va vb with
          | .error e => .error e
          | .ok v => .ok (v, s3))
  | .mapScalar op k x, s =>
    withCache (fingerprint (.mapScalar op k x)) s (fun s1 =>
      match evalNode st x s1 with
      | .error e => .error e
      | .ok (va, s2) =>
        match execScalar op k (fingerprint (.mapScalar op k x)) va with
        | .error e => .error e
        | .ok v => .ok (v, s2))
  | .reduce op x, s =>
    withCache (fingerprint (.reduce op x)) s (fun s1 =>
      match evalNode st x s1 with
      | .error e => .error e
      | .ok (va, s2) =>
        match execReduce op (fingerprint (.reduce op x)) va with
        | .error e => .error e
        | .ok v => .ok (v, s2))
  | .concat x y, s =>
    withCache (fingerprint (.concat x y)) s (fun s1 =>
      match evalNode st x s1 with
      | .error e => .error e
      | .ok (va, s2) =>
        match evalNode st y s2 with
        | .error e => .error e
        | .ok (vb, s3) => .ok (va ++ vb, s3))
  | .slice i j x, s =>
    withCache (fingerprint (.slice i j x)) s (fun s1 =>
      match evalNode st x s1 with
      | .error e => .error e
      | .ok (va, s2) => .ok ([(va.flatten.drop i).take (j - i)], s2))

/-- A realized, concrete in-memory result: a one-dimensional array, or a
scalar for a zero-dimensional reduction result. -/
inductive Realized where
  | arr (data : List Int)
  | scalar (x : Int)
deriving DecidableEq

/-- Assembles a node's evaluated chunks into the final in-memory result, in
chunk-index order; zero-dimensional results become scalars. -/
def assemble (n : TaskNode) (v : Chunks) : Realized :=
  if ndim n = 0 then .scalar v.flatten.headI else .arr v.flatten

/-- Evaluates a list of requested roots left to right against one shared
cache, assembling each root's realized result. -/
def evalList (st : Storage) : List TaskNode → EvalState → Except EvalError (List Realized × EvalState)
  | [], s => .ok ([], s)
  | n :: rest, s =>
    match evalNode st n s with
    | .error e => .error e
    | .ok (v, s1) =>
      match evalList st rest s1 with
      | .error e => .error e
      | .ok (vs, s2) => .ok (assemble n v :: vs, s2)

/-- Pure reference result of one root. -/
def realizeRoot (st : Storage) (n : TaskNode) : Except EvalError Realized :=
  match denote st n with
  | .ok v => .ok (assemble n v)
  | .error e => .error e

/-- Pure reference results of a list of roots: the first error aborts. -/
def denoteList (st : Storage) : List TaskNode → Except EvalError (List Realized)
  | [] => .ok []
  | n :: rest =>
    match realizeRoot st n with
    | .error e => .error e
    | .ok r =>
      match denoteList st rest with
      | .error e => .error e
      | .ok rs => .ok (r :: rs)

/-- Modelled from the spec: `ChunkedArray` — a handle to a task-graph root
plus the chunk-boundary layout (chunk lengths along the leading axis). -/
structure ChunkedArray where
  root : TaskNode
  layout : List Nat
deriving DecidableEq

/-- A `ChunkedArray` whose layout metadata agrees with its root's eagerly
inferred layout and whose graph is structurally well-formed — what the
eager constructors guarantee. -/
def validCA (a : ChunkedArray) : Prop :=
  a.layout = nlayout a.root ∧ wfB a.root = true

/-- Modelled from the spec: graph-construction validation failures, raised
eagerly before evaluation is ever attempted. -/
inductive BuildError where
  | shapeMismatch (s1 s2 : Nat)
  | dtypeError (d1 d2 : DType)
deriving DecidableEq

/-- Modelled from the spec: the batched `evaluate` / `CatalogSource.compute`
entry point — evaluates the requested arrays together against one injected
cache, returning every realized result or the first error; on failure the
caller's cache is returned unchanged (nothing is cached for failed work). -/
def evaluate (st : Storage) (args : List ChunkedArray) (c : GlobalCache) :
    Except EvalError (List Realized) × GlobalCache :=
  match evalList st (args.map ChunkedArray.root) { cache := c, log := [] } with
  | .ok (vs, s) => (.ok vs, s.cache)
  | .error e => (.error e, c)

/-- Modelled from the spec: eager elementwise construction — validates
operand layouts/shapes and dtypes immediately and only then builds the new
root node; no chunk is read and no evaluation is attempted. -/
def mkMap2 (op : BinOp) (a b : ChunkedArray) : Except BuildError ChunkedArray :=
  if a.layout ≠ b.layout then .error (.shapeMismatch a.layout.sum b.layout.sum)
  else if ndtype a.root ≠ ndtype b.root then
    .error (.dtypeError (ndtype a.root) (ndtype b.root))
  else if op = .div ∧ ndtype a.root = .i64 then
    .error (.dtypeError (ndtype a.root) (ndtype b.root))
  else .ok { root := .map2 op a.root b.root, layout := a.layout }

/-- Modelled from the spec: eager scalar-parameter elementwise
construction (integer division by the scalar is forbidden for `i64`). -/
def mkMapScalar (op : BinOp) (k : Int) (a : ChunkedArray) : Except BuildError ChunkedArray :=
  if op = .div ∧ ndtype a.root = .i64 then
    .error (.dtypeError (ndtype a.root) (ndtype a.root))
  else .ok { root := .mapScalar op k a.root, layout := a.layout }

/-- Modelled from the spec: reduction construction — always valid, output
is a single single-element chunk. -/
def mkReduce (op : RedOp) (a : ChunkedArray) : ChunkedArray :=
  { root := .reduce op a.root, layout := [1] }

/-- Modelled from the spec: concatenation of two arrays holding the same
dtype; the layouts are appended. -/
def mkConcat (a b : ChunkedArray) : Except BuildError ChunkedArray :=
  if ndtype a.root ≠ ndtype b.root then
    .error (.dtypeError (ndtype a.root) (ndtype b.root))
  else .ok { root := .concat a.root b.root, layout := a.layout ++ b.layout }

/-- The notebook's rescaling operation `pos * BoxSize`: a pure algebraic
operation returning a fresh `ChunkedArray` with a new root node. -/
def rescale (k : Int) (a : ChunkedArray) : ChunkedArray :=
  { root := .mapScalar .mul k a.root, layout := a.layout }

/-- Modelled from the spec: the per-file leaf structure of a catalog
column — one full-file range-read leaf per physical file, concatenated in
the fixed caller-specified file order (chunks never straddle two files). -/
def columnNode (dt : DType) : List (Nat × Nat) → TaskNode
  | [] => .read 0 0 0 dt
  | [(f, r)] => .read f 0 r dt
  | (f, r) :: rest => .concat (.read f 0 r dt) (columnNode dt rest)

/-- Modelled from the spec: `CatalogView` — presents one or more physical
files (identifier and row count, in caller order) as a single virtual
chunked array for the modelled column. -/
structure CatalogView where
  files : List (Nat × Nat)
  dt : DType

/-- Modelled from the spec: `column` — the one logical `ChunkedArray` of
the view, whose chunk layout is the per-file row counts. -/
def CatalogView.column (v : CatalogView) : ChunkedArray :=
  { root := columnNode v.dt v.files, layout := v.files.map Prod.snd }

/-- An operation chain applied on top of a column, for the multi-file
equivalence property. -/
inductive Chain where
  | base
  | scalarOp (op : BinOp) (k : Int) (c : Chain)
  | zipOp (op : BinOp) (c d : Chain)
  | reduceOp (op : RedOp) (c : Chain)

/-- Builds the task graph of a chain over a base root node. -/
def Chain.apply (root : TaskNode) : Chain → TaskNode
  | .base => root
  | .scalarOp op k c => .mapScalar op k (c.apply root)
  | .zipOp op c d => .map2 op (c.apply root) (d.apply root)
  | .reduceOp op c => .reduce op (c.apply root)

/-- Statically inferred chunk layout of a chain over a base layout. -/
def chainLens (base : List Nat) : Chain → List Nat
  | .base => base
  | .scalarOp _ _ c => chainLens base c
  | .zipOp _ c _ => chainLens base c
  | .reduceOp _ _ => [1]

/-- A chain the eager constructors would accept over either base layout:
every elementwise combination joins operands of identical layout. -/
def chainOK (b1 b2 : List Nat) : Chain → Bool
  | .base => true
  | .scalarOp _ _ c => chainOK b1 b2 c
  | .zipOp _ c d =>
    chainOK b1 b2 c && chainOK b1 b2 d &&
      decide (chainLens b1 c = chainLens b1 d) && decide (chainLens b2 c = chainLens b2 d)
  | .reduceOp _ c => chainOK b1 b2 c

/-- A cache whose every entry stores exactly the denotation of the node it
fingerprints — the coherence invariant evaluation maintains and relies on
for determinism. -/
def coherent (st : Storage) (c : GlobalCache) : Prop :=
  ∀ e ∈ c.entries, ∀ n : TaskNode, fingerprint n = e.fp → denote st n = .ok e.bytes

/-- Coverage closure: whenever a node's result is cached, so is every
sub-node's (true for caches populated only by complete evaluations from
empty). -/
def ccInv (c : GlobalCache) : Prop :=
  ∀ m : TaskNode, containsFpB c (fingerprint m) = true →
    ∀ p ∈ subnodesList m, containsFpB c (fingerprint p) = true

/-- The leaf-read counter invariant: each leaf has been read exactly once
if its result is cached, and never otherwise. -/
def readLogInv (s : EvalState) : Prop :=
  ∀ f a b dt, s.log.count (TaskNode.read f a b dt) =
    (if containsFpB s.cache (fingerprint (TaskNode.read f a b dt)) then 1 else 0)

/-! ### Fingerprint injectivity -/

theorem dtypeCode_inj {x y : DType} (h : x.code = y.code) : x = y := by
  cases x <;> cases y <;> simp_all [DType.code]

theorem binopCode_inj {x y : BinOp} (h : x.code = y.code) : x = y := by
  cases x <;> cases y <;> simp_all [BinOp.code]

theorem redopCode_inj {x y : RedOp} (h : x.code = y.code) : x = y := by
  cases x <;> cases y <;> simp_all [RedOp.code]

theorem intCode_inj {a b : Int} (h : intCode a = intCode b) : a = b := by
  unfold intCode at h
  rw [Nat.pair_eq_pair] at h
  omega

/-- The structural fingerprint is collision-free: equal fingerprints mean
structurally equal nodes. -/
theorem fingerprint_inj : ∀ {m n : TaskNode}, fingerprint m = fingerprint n → m = n := by
  intro m
  induction m with
  | read f a b dt =>
    intro n h
    cases n <;> simp [fingerprint, Nat.pair_eq_pair] at h
    obtain ⟨h1, h2, h3, h4⟩ := h
    subst h1; subst h2; subst h3
    rw [dtypeCode_inj h4]
  | map2 op x y ihx ihy =>
    intro n h
    cases n <;> simp [fingerprint, Nat.pair_eq_pair] at h
    obtain ⟨h1, h2, h3⟩ := h
    rw [binopCode_inj h1, ihx h2, ihy h3]
  | mapScalar op k x ihx =>
    intro n h
    cases n <;> simp [fingerprint, Nat.pair_eq_pair] at h
    obtain ⟨h1, h2, h3⟩ := h
    rw [binopCode_inj h1, intCode_inj h2, ihx h3]
  | reduce op x ihx =>
    intro n h
    cases n <;> simp [fingerprint, Nat.pair_eq_pair] at h
    obtain ⟨h1, h2⟩ := h
    rw [redopCode_inj h1, ihx h2]
  | concat x y ihx ihy =>
    intro n h
    cases n <;> simp [fingerprint, Nat.pair_eq_pair] at h
    obtain ⟨h1, h2⟩ := h
    rw [ihx h1, ihy h2]
  | slice i j x ihx =>
    intro n h
    cases n <;> simp [fingerprint, Nat.pair_eq_pair] at h
    obtain ⟨h1, h2, h3⟩ := h
    subst h1; subst h2
    rw [ihx h3]

/-! ### List helper lemmas -/

theorem sublist_sum_le {l1 l2 : List Nat} (h : l1.Sublist l2) : l1.sum ≤ l2.sum := by
  induction h with
  | slnil => simp
  | cons a _ ih => simp only [List.sum_cons]; omega
  | cons₂ a _ ih => simp only [List.sum_cons]; omega

theorem chunkFoldl_eq_flatten {β : Type} (f : β → Int → β) (b : β) (L : Chunks) :
    L.foldl (fun acc c => c.foldl f acc) b = L.flatten.foldl f b := by
  induction L generalizing b with
  | nil => rfl
  | cons c cs ih => simp [List.foldl_append, ih]

theorem flatten_zipWith (f : Int → Int → Int) :
    ∀ (va vb : Chunks), va.map List.length = vb.map List.length →
      (List.zipWith (fun ca cb => List.zipWith f ca cb) va vb).flatten =
        List.zipWith f va.flatten vb.flatten := by
  intro va
  induction va with
  | nil => intro vb h; cases vb <;> simp_all
  | cons ca cas ih =>
    intro vb h
    cases vb with
    | nil => simp_all
    | cons cb cbs =>
      simp only [List.map_cons, List.cons.injEq] at h
      obtain ⟨h1, h2⟩ := h
      simp only [List.zipWith_cons_cons, List.flatten_cons, ih cbs h2]
      rw [List.zipWith_append _ _ _ _ _ h1]

theorem lens_zipWith (f : Int → Int → Int) :
    ∀ (va vb : Chunks), va.map List.length = vb.map List.length →
      (List.zipWith (fun ca cb => List.zipWith f ca cb) va vb).map List.length =
        va.map List.length := by
  intro va
  induction va with
  | nil => intro vb _; simp
  | cons ca cas ih =>
    intro vb h
    cases vb with
    | nil => simp_all
    | cons cb cbs =>
      simp only [List.map_cons, List.cons.injEq] at h
      obtain ⟨h1, h2⟩ := h
      simp [List.length_zipWith, h1, ih cbs h2]

/-! ### Cache lemmas -/

theorem usageOf_append (es1 es2 : List CacheEntry) :
    usageOf (es1 ++ es2) = usageOf es1 + usageOf es2 := by
  simp [usageOf]

theorem usageOf_touch (fp now : Nat) (es : List CacheEntry) :
    usageOf (touch fp now es) = usageOf es := by
  unfold usageOf touch
  rw [List.map_map]
  congr 1
  apply List.map_congr_left
  intro e _
  by_cases h : e.fp = fp <;> simp [h]

theorem usageOf_sublist_le {es1 es2 : List CacheEntry} (h : es1.Sublist es2) :
    usageOf es1 ≤ usageOf es2 :=
  sublist_sum_le (h.map CacheEntry.sizeBytes)

theorem removeLRU_sublist (es : List CacheEntry) : (removeLRU es).Sublist es := by
  match es with
  | [] => simp [removeLRU]
  | [a] => simp [removeLRU]
  | a :: b :: rest =>
    unfold removeLRU
    split
    · exact (List.sublist_cons_self a (b :: rest))
    · exact (removeLRU_sublist (b :: rest)).cons₂ a

theorem removeLRU_head {a : CacheEntry} {rest : List CacheEntry}
    (h : ∀ e ∈ rest, lruLe a e = true) : removeLRU (a :: rest) = rest := by
  match rest with
  | [] => rfl
  | b :: rest' =>
    unfold removeLRU
    rw [if_pos]
    rw [List.all_eq_true]
    exact h

theorem evictLoop_sublist (fuel cap : Nat) (es : List CacheEntry) :
    (evictLoop fuel cap es).Sublist es := by
  induction fuel generalizing es with
  | zero => simp [evictLoop]
  | succ fuel ih =>
    unfold evictLoop
    split
    · exact List.Sublist.refl es
    · exact (ih (removeLRU es)).trans (removeLRU_sublist es)

theorem usage_evictLoop_le (fuel cap : Nat) (es : List CacheEntry) :
    usageOf (evictLoop fuel cap es) ≤ cap := by
  induction fuel generalizing es with
  | zero => simp [evictLoop, usageOf]
  | succ fuel ih =>
    unfold evictLoop
    split
    · assumption
    · exact ih (removeLRU es)

theorem evictUntil_sublist (cap : Nat) (es : List CacheEntry) :
    (evictUntil cap es).Sublist es :=
  evictLoop_sublist es.length cap es

theorem usage_evictUntil_le (cap : Nat) (es : List CacheEntry) :
    usageOf (evictUntil cap es) ≤ cap :=
  usage_evictLoop_le es.length cap es

theorem evictUntil_of_le {cap : Nat} {es : List CacheEntry} (h : usageOf es ≤ cap) :
    evictUntil cap es = es := by
  unfold evictUntil
  match es with
  | [] => rfl
  | e :: rest => simp [evictLoop, h]

theorem containsFpB_iff {c : GlobalCache} {fp : Nat} :
    containsFpB c fp = true ↔ ∃ e ∈ c.entries, e.fp = fp := by
  simp [containsFpB]

theorem mem_touch {fp now : Nat} {es : List CacheEntry} {e' : CacheEntry}
    (h : e' ∈ touch fp now es) :
    ∃ e ∈ es, e'.fp = e.fp ∧ e'.bytes = e.bytes ∧ e'.sizeBytes = e.sizeBytes := by
  rcases List.mem_map.1 h with ⟨e, he, rfl⟩
  refine ⟨e, he, ?_⟩
  by_cases hfp : e.fp = fp <;> simp [hfp]

theorem touch_map_fp (fp now : Nat) (es : List CacheEntry) :
    (touch fp now es).map CacheEntry.fp = es.map CacheEntry.fp := by
  unfold touch
  rw [List.map_map]
  apply List.map_congr_left
  intro e _
  by_cases h : e.fp = fp <;> simp [h]

theorem anyOfMap {α β : Type} (l : List α) (f : α → β) (p : β → Bool) :
    (l.map f).any p = l.any (fun a => p (f a)) := by
  induction l with
  | nil => rfl
  | cons a l ih => simp [List.any_cons, ih]

theorem containsFpB_eq_any_map (c : GlobalCache) (g : Nat) :
    containsFpB c g = (c.entries.map CacheEntry.fp).any (fun x => x = g) := by
  rw [anyOfMap]
  rfl

theorem cacheGet_of_contains_false {fp : Nat} {c : GlobalCache}
    (h : containsFpB c fp = false) : cacheGet fp c = (none, c) := by
  have h' : c.entries.find? (fun e => e.fp = fp) = none := by
    rw [List.find?_eq_none]
    intro e he
    intro hc
    have : containsFpB c fp = true := containsFpB_iff.2 ⟨e, he, by simpa using hc⟩
    rw [h] at this
    exact Bool.false_ne_true this
  simp [cacheGet, h']

theorem cacheGet_fst_some {fp : Nat} {c : GlobalCache} {v : Chunks} {c' : GlobalCache}
    (h : cacheGet fp c = (some v, c')) :
    (∃ e ∈ c.entries, e.fp = fp ∧ e.bytes = v) ∧
      c' = { c with clock := c.clock + 1, entries := touch fp c.clock c.entries } := by
  cases hfind : c.entries.find? (fun e => e.fp = fp) with
  | none =>
    simp only [cacheGet, hfind] at h
    exact absurd h (by simp)
  | some e =>
    simp only [cacheGet, hfind, Prod.mk.injEq, Option.some.injEq] at h
    obtain ⟨h1, h2⟩ := h
    have hmem := List.mem_of_find?_eq_some hfind
    have hfp := List.find?_some hfind
    simp only [decide_eq_true_eq] at hfp
    exact ⟨⟨e, hmem, hfp, h1⟩, h2.symm⟩

theorem cacheGet_fst_none {fp : Nat} {c : GlobalCache} {c' : GlobalCache}
    (h : cacheGet fp c = (none, c')) : c' = c ∧ containsFpB c fp = false := by
  cases hfind : c.entries.find? (fun e => e.fp = fp) with
  | none =>
    simp only [cacheGet, hfind, Prod.mk.injEq] at h
    refine ⟨h.2.symm, ?_⟩
    rw [List.find?_eq_none] at hfind
    simp only [containsFpB]
    rw [List.any_eq_false]
    intro e he
    simpa using hfind e he
  | some e =>
    simp only [cacheGet, hfind] at h
    exact absurd h (by simp)

theorem cachePut_of_fits {fp : Nat} {v : Chunks} {c : GlobalCache}
    (h : usageOf (c.entries.filter (fun e => e.fp ≠ fp)) + chunksSize v ≤ c.capacityBytes) :
    cachePut fp v c = { c with
      clock := c.clock + 1
      entries := c.entries.filter (fun e => e.fp ≠ fp) ++ [putEntry fp v c] } := by
  unfold cachePut
  rw [if_neg (by omega)]
  have heq : evictUntil c.capacityBytes
      (c.entries.filter (fun e => e.fp ≠ fp) ++ [putEntry fp v c]) =
      c.entries.filter (fun e => e.fp ≠ fp) ++ [putEntry fp v c] := by
    apply evictUntil_of_le
    rw [usageOf_append]
    simpa [usageOf, putEntry] using h
  rw [heq]

theorem capacity_cachePut (fp : Nat) (v : Chunks) (c : GlobalCache) :
    (cachePut fp v c).capacityBytes = c.capacityBytes := by
  unfold cachePut
  split <;> rfl

theorem capacity_cacheGet (fp : Nat) (c : GlobalCache) :
    ((cacheGet fp c).2).capacityBytes = c.capacityBytes := by
  cases hfind : c.entries.find? (fun e => e.fp = fp) with
  | none => simp [cacheGet, hfind]
  | some e => simp [cacheGet, hfind]

theorem usage_cacheGet (fp : Nat) (c : GlobalCache) :
    usage (cacheGet fp c).2 = usage c := by
  cases hfind : c.entries.find? (fun e => e.fp = fp) with
  | none => simp [cacheGet, hfind]
  | some e => simp [cacheGet, hfind, usage, usageOf_touch]

theorem contains_cacheGet (fp g : Nat) (c : GlobalCache) :
    containsFpB (cacheGet fp c).2 g = containsFpB c g := by
  cases hfind : c.entries.find? (fun e => e.fp = fp) with
  | none => simp [cacheGet, hfind]
  | some e =>
    simp only [cacheGet, hfind]
    rw [containsFpB_eq_any_map, containsFpB_eq_any_map]
    simp only [touch_map_fp]

theorem mem_cachePut {fp : Nat} {v : Chunks} {c : GlobalCache} {e : CacheEntry}
    (h : e ∈ (cachePut fp v c).entries) : e ∈ c.entries ∨ e = putEntry fp v c := by
  unfold cachePut at h
  split at h
  · exact Or.inl h
  · have h2 := (evictUntil_sublist _ _).mem h
    rcases List.mem_append.1 h2 with h3 | h3
    · exact Or.inl (List.mem_of_mem_filter h3)
    · simp only [List.mem_singleton] at h3
      exact Or.inr h3

theorem cacheInv_put (fp : Nat) (v : Chunks) {c : GlobalCache} (hinv : cacheInv c) :
    cacheInv (cachePut fp v c) := by
  unfold cacheInv cachePut
  split
  · exact hinv
  · simpa [usage] using usage_evictUntil_le c.capacityBytes _

theorem cacheInv_get (fp : Nat) {c : GlobalCache} (hinv : cacheInv c) :
    cacheInv (cacheGet fp c).2 := by
  unfold cacheInv
  rw [usage_cacheGet, capacity_cacheGet]
  exact hinv

theorem cacheInv_resize (newCap : Nat) (c : GlobalCache) :
    cacheInv (cacheResize newCap c) := by
  unfold cacheInv cacheResize
  simpa [usage] using usage_evictUntil_le newCap c.entries

theorem cacheInv_clear (c : GlobalCache) : cacheInv (cacheClear c) := by
  simp [cacheInv, cacheClear, usage, usageOf]

/-! ### Cache coherence lemmas -/

theorem coherent_get (st : Storage) (fp : Nat) {c : GlobalCache} (h : coherent st c) :
    coherent st (cacheGet fp c).2 := by
  cases hfind : c.entries.find? (fun e => e.fp = fp) with
  | none => simp only [cacheGet, hfind]; exact h
  | some e =>
    simp only [cacheGet, hfind]
    intro e' he' n hn
    rcases mem_touch he' with ⟨e0, he0, hfp, hbytes, -⟩
    rw [hbytes]
    exact h e0 he0 n (by rw [hn, hfp])

theorem coherent_empty (st : Storage) (cap : Nat) : coherent st (freshCache cap) := by
  intro e he
  exact absurd he (List.not_mem_nil e)

theorem coherent_put (st : Storage) {c : GlobalCache} (h : coherent st c)
    {nn : TaskNode} {v : Chunks} (hv : denote st nn = .ok v) :
    coherent st (cachePut (fingerprint nn) v c) := by
  intro e he n hn
  rcases mem_cachePut he with h1 | h1
  · exact h e h1 n hn
  · rw [h1] at hn ⊢
    have : n = nn := fingerprint_inj hn
    rw [this]
    exact hv

/-! ### Evaluator soundness: the cached evaluator computes the denotation -/

theorem withCache_spec (st : Storage) (nn : TaskNode) (s : EvalState)
    (k : EvalState → Except EvalError (Chunks × EvalState))
    (hcoh : coherent st s.cache)
    (hk : ∀ s1 : EvalState, coherent st s1.cache →
        (∀ v s2, k s1 = .ok (v, s2) → denote st nn = .ok v ∧ coherent st s2.cache) ∧
        (∀ er, k s1 = .error er → denote st nn = .error er)) :
    (∀ v s', withCache (fingerprint nn) s k = .ok (v, s') →
      denote st nn = .ok v ∧ coherent st s'.cache) ∧
    (∀ er, withCache (fingerprint nn) s k = .error er → denote st nn = .error er) := by
  constructor
  · intro v s' hok
    unfold withCache at hok
    split at hok
    next v0 c1 hget =>
      simp only [Except.ok.injEq, Prod.mk.injEq] at hok
      obtain ⟨hv, hs⟩ := hok
      subst hv
      subst hs
      rcases cacheGet_fst_some hget with ⟨⟨e, he, hefp, hbytes⟩, -⟩
      refine ⟨?_, ?_⟩
      · rw [← hbytes]
        exact hcoh e he nn hefp.symm
      · have hcg := coherent_get st (fingerprint nn) hcoh
        rw [hget] at hcg
        exact hcg
    next c1 hget =>
      have hcoh1 : coherent st c1 := by
        have hcg := coherent_get st (fingerprint nn) hcoh
        rw [hget] at hcg
        exact hcg
      have hk1 := hk { s with cache := c1 } hcoh1
      split at hok
      · exact absurd hok (by simp)
      next v0 s2 hkres =>
        simp only [Except.ok.injEq, Prod.mk.injEq] at hok
        obtain ⟨hv, hs⟩ := hok
        subst hv
        subst hs
        have hden := (hk1.1 v0 s2 hkres).1
        exact ⟨hden, coherent_put st (hk1.1 v0 s2 hkres).2 hden⟩
  · intro er her
    unfold withCache at her
    split at her
    next v0 c1 hget => exact absurd her (by simp)
    next c1 hget =>
      have hcoh1 : coherent st c1 := by
        have hcg := coherent_get st (fingerprint nn) hcoh
        rw [hget] at hcg
        exact hcg
      have hk1 := hk { s with cache := c1 } hcoh1
      split at her
      next er0 hkres =>
        simp only [Except.error.injEq] at her
        subst her
        exact hk1.2 er0 hkres
      next v0 s2 hkres => exact absurd her (by simp)

theorem evalNode_sound (st : Storage) :
    ∀ (n : TaskNode) (s : EvalState), coherent st s.cache →
    (∀ v s', evalNode st n s = .ok (v, s') → denote st n = .ok v ∧ coherent st s'.cache) ∧
    (∀ er, evalNode st n s = .error er → denote st n = .error er) := by
  intro n
  induction n with
  | read f a b dt =>
    intro s hcoh
    simp only [evalNode]
    apply withCache_spec st (.read f a b dt) s _ hcoh
    intro s1 hcoh1
    constructor
    · intro v s2 hok
      cases hr : readRange st f a b with
      | some rows =>
        simp only [hr] at hok
        simp only [Except.ok.injEq, Prod.mk.injEq] at hok
        obtain ⟨hv, hs⟩ := hok
        subst hv
        subst hs
        simp only [denote, hr]
        exact ⟨trivial, hcoh1⟩
      | none =>
        simp only [hr] at hok
        exact absurd hok (by simp)
    · intro er her
      cases hr : readRange st f a b with
      | some rows =>
        simp only [hr] at her
        exact absurd her (by simp)
      | none =>
        simp only [hr, Except.error.injEq] at her
        simp only [denote, hr, ← her]
  | map2 op x y ihx ihy =>
    intro s hcoh
    simp only [evalNode]
    apply withCache_spec st (.map2 op x y) s _ hcoh
    intro s1 hcoh1
    cases hx : evalNode st x s1 with
    | error er0 =>
      have hdx := (ihx s1 hcoh1).2 er0 hx
      constructor
      · intro v s2 hok
        simp only [hx] at hok
        exact absurd hok (by simp)
      · intro er her
        simp only [hx, Except.error.injEq] at her
        simp only [denote, hdx, ← her]
    | ok p =>
      rcases p with ⟨va, sa⟩
      have hdx := ((ihx s1 hcoh1).1 va sa hx).1
      have hca := ((ihx s1 hcoh1).1 va sa hx).2
      cases hy : evalNode st y sa with
      | error er0 =>
        have hdy := (ihy sa hca).2 er0 hy
        constructor
        · intro v s2 hok
          simp only [hx, hy] at hok
          exact absurd hok (by simp)
        · intro er her
          simp only [hx, hy, Except.error.injEq] at her
          simp only [denote, hdx, hdy, ← her]
      | ok q =>
        rcases q with ⟨vb, sb⟩
        have hdy := ((ihy sa hca).1 vb sb hy).1
        have hcb := ((ihy sa hca).1 vb sb hy).2
        cases hex : execMap2 op (fingerprint (.map2 op x y)) va vb with
        | error er0 =>
          constructor
          · intro v s2 hok
            simp only [hx, hy, hex] at hok
            exact absurd hok (by simp)
          · intro er her
            simp only [hx, hy, hex, Except.error.injEq] at her
            simp only [denote, hdx, hdy, ← her, hex]
        | ok v0 =>
          constructor
          · intro v s2 hok
            simp only [hx, hy, hex, Except.ok.injEq, Prod.mk.injEq] at hok
            obtain ⟨hv, hs⟩ := hok
            subst hv
            subst hs
            exact ⟨by simp only [denote, hdx, hdy, hex], hcb⟩
          · intro er her
            simp only [hx, hy, hex] at her
            exact absurd her (by simp)
  | mapScalar op k x ihx =>
    intro s hcoh
    simp only [evalNode]
    apply withCache_spec st (.mapScalar op k x) s _ hcoh
    intro s1 hcoh1
    cases hx : evalNode st x s1 with
    | error er0 =>
      have hdx := (ihx s1 hcoh1).2 er0 hx
      constructor
      · intro v s2 hok
        simp only [hx] at hok
        exact absurd hok (by simp)
      · intro er her
        simp only [hx, Except.error.injEq] at her
        simp only [denote, hdx, ← her]
    | ok p =>
      rcases p with ⟨va, sa⟩
      have hdx := ((ihx s1 hcoh1).1 va sa hx).1
      have hca := ((ihx s1 hcoh1).1 va sa hx).2
      cases hex : execScalar op k (fingerprint (.mapScalar op k x)) va with
      | error er0 =>
        constructor
        · intro v s2 hok
          simp only [hx, hex] at hok
          exact absurd hok (by simp)
        · intro er her
          simp only [hx, hex, Except.error.injEq] at her
          simp only [denote, hdx, ← her, hex]
      | ok v0 =>
        constructor
        · intro v s2 hok
          simp only [hx, hex, Except.ok.injEq, Prod.mk.injEq] at hok
          obtain ⟨hv, hs⟩ := hok
          subst hv
          subst hs
          exact ⟨by simp only [denote, hdx, hex], hca⟩
        · intro er her
          simp only [hx, hex] at her
          exact absurd her (by simp)
  | reduce op x ihx =>
    intro s hcoh
    simp only [evalNode]
    apply withCache_spec st (.reduce op x) s _ hcoh
    intro s1 hcoh1
    cases hx : evalNode st x s1 with
    | error er0 =>
      have hdx := (ihx s1 hcoh1).2 er0 hx
      constructor
      · intro v s2 hok
        simp only [hx] at hok
        exact absurd hok (by simp)
      · intro er her
        simp only [hx, Except.error.injEq] at her
        simp only [denote, hdx, ← her]
    | ok p =>
      rcases p with ⟨va, sa⟩
      have hdx := ((ihx s1 hcoh1).1 va sa hx).1
      have hca := ((ihx s1 hcoh1).1 va sa hx).2
      cases hex : execReduce op (fingerprint (.reduce op x)) va with
      | error er0 =>
        constructor
        · intro v s2 hok
          simp only [hx, hex] at hok
          exact absurd hok (by simp)
        · intro er her
          simp only [hx, hex, Except.error.injEq] at her
          simp only [denote, hdx, ← her, hex]
      | ok v0 =>
        constructor
        · intro v s2 hok
          simp only [hx, hex, Except.ok.injEq, Prod.mk.injEq] at hok
          obtain ⟨hv, hs⟩ := hok
          subst hv
          subst hs
          exact ⟨by simp only [denote, hdx, hex], hca⟩
        · intro er her
          simp only [hx, hex] at her
          exact absurd her (by simp)
  | concat x y ihx ihy =>
    intro s hcoh
    simp only [evalNode]
    apply withCache_spec st (.concat x y) s _ hcoh
    intro s1 hcoh1
    cases hx : evalNode st x s1 with
    | error er0 =>
      have hdx := (ihx s1 hcoh1).2 er0 hx
      constructor
      · intro v s2 hok
        simp only [hx] at hok
        exact absurd hok (by simp)
      · intro er her
        simp only [hx, Except.error.injEq] at her
        simp only [denote, hdx, ← her]
    | ok p =>
      rcases p with ⟨va, sa⟩
      have hdx := ((ihx s1 hcoh1).1 va sa hx).1
      have hca := ((ihx s1 hcoh1).1 va sa hx).2
      cases hy : evalNode st y sa with
      | error er0 =>
        have hdy := (ihy sa hca).2 er0 hy
        constructor
        · intro v s2 hok
          simp only [hx, hy] at hok
          exact absurd hok (by simp)
        · intro er her
          simp only [hx, hy, Except.error.injEq] at her
          simp only [denote, hdx, hdy, ← her]
      | ok q =>
        rcases q with ⟨vb, sb⟩
        have hdy := ((ihy sa hca).1 vb sb hy).1
        have hcb := ((ihy sa hca).1 vb sb hy).2
        constructor
        · intro v s2 hok
          simp only [hx, hy, Except.ok.injEq, Prod.mk.injEq] at hok
          obtain ⟨hv, hs⟩ := hok
          subst hv
          subst hs
          exact ⟨by simp only [denote, hdx, hdy], hcb⟩
        · intro er her
          simp only [hx, hy] at her
          exact absurd her (by simp)
  | slice i j x ihx =>
    intro s hcoh
    simp only [evalNode]
    apply withCache_spec st (.slice i j x) s _ hcoh
    intro s1 hcoh1
    cases hx : evalNode st x s1 with
    | error er0 =>
      have hdx := (ihx s1 hcoh1).2 er0 hx
      constructor
      · intro v s2 hok
        simp only [hx] at hok
        exact absurd hok (by simp)
      · intro er her
        simp only [hx, Except.error.injEq] at her
        simp only [denote, hdx, ← her]
    | ok p =>
      rcases p with ⟨va, sa⟩
      have hdx := ((ihx s1 hcoh1).1 va sa hx).1
      have hca := ((ihx s1 hcoh1).1 va sa hx).2
      constructor
      · intro v s2 hok
        simp only [hx, Except.ok.injEq, Prod.mk.injEq] at hok
        obtain ⟨hv, hs⟩ := hok
        subst hv
        subst hs
        exact ⟨by simp only [denote, hdx], hca⟩
      · intro er her
        simp only [hx] at her
        exact absurd her (by simp)

/-- List-level soundness: a successful batched evaluation returns exactly
the pure reference results and keeps the cache coherent; a failing one
surfaces exactly the pure reference error. -/
theorem evalList_sound (st : Storage) :
    ∀ (ns : List TaskNode) (s : EvalState), coherent st s.cache →
    (∀ vs s', evalList st ns s = .ok (vs, s') →
      denoteList st ns = .ok vs ∧ coherent st s'.cache) ∧
    (∀ er, evalList st ns s = .error er → denoteList st ns = .error er) := by
  intro ns
  induction ns with
  | nil =>
    intro s hcoh
    constructor
    · intro vs s' hok
      simp only [evalList, Except.ok.injEq, Prod.mk.injEq] at hok
      obtain ⟨hv, hs⟩ := hok
      subst hv
      subst hs
      exact ⟨rfl, hcoh⟩
    · intro er her
      simp only [evalList] at her
      exact absurd her (by simp)
  | cons n rest ih =>
    intro s hcoh
    cases hn : evalNode st n s with
    | error er0 =>
      have hd := (evalNode_sound st n s hcoh).2 er0 hn
      constructor
      · intro vs s' hok
        simp only [evalList, hn] at hok
        exact absurd hok (by simp)
      · intro er her
        simp only [evalList, hn, Except.error.injEq] at her
        simp only [denoteList, realizeRoot, hd, ← her]
    | ok p =>
      rcases p with ⟨v, s1⟩
      have hd := ((evalNode_sound st n s hcoh).1 v s1 hn).1
      have hc1 := ((evalNode_sound st n s hcoh).1 v s1 hn).2
      cases hrest : evalList st rest s1 with
      | error er0 =>
        have hdr := (ih s1 hc1).2 er0 hrest
        constructor
        · intro vs s' hok
          simp only [evalList, hn, hrest] at hok
          exact absurd hok (by simp)
        · intro er her
          simp only [evalList, hn, hrest, Except.error.injEq] at her
          simp only [denoteList, realizeRoot, hd, hdr, ← her]
      | ok q =>
        rcases q with ⟨vs0, s2⟩
        have hdr := ((ih s1 hc1).1 vs0 s2 hrest).1
        have hc2 := ((ih s1 hc1).1 vs0 s2 hrest).2
        constructor
        · intro vs s' hok
          simp only [evalList, hn, hrest, Except.ok.injEq, Prod.mk.injEq] at hok
          obtain ⟨hv, hs⟩ := hok
          subst hv
          subst hs
          refine ⟨?_, hc2⟩
          simp only [denoteList, realizeRoot, hd, hdr]
        · intro er her
          simp only [evalList, hn, hrest] at her
          exact absurd her (by simp)

/-! ### Budget bookkeeping: a large enough cache never evicts -/

theorem usageOf_filter_le (p : CacheEntry → Bool) (es : List CacheEntry) :
    usageOf (es.filter p) ≤ usageOf es :=
  usageOf_sublist_le (List.filter_sublist es)

theorem okSize_of_denote_ok {st : Storage} {m : TaskNode} {v : Chunks}
    (h : denote st m = .ok v) : okSize st m = chunksSize v := by
  unfold okSize
  rw [h]

theorem budgetOf_read (st : Storage) (f a b : Nat) (dt : DType) :
    budgetOf st (.read f a b dt) = okSize st (.read f a b dt) := by
  simp [budgetOf, subnodesList]

theorem budgetOf_map2 (st : Storage) (op : BinOp) (x y : TaskNode) :
    budgetOf st (.map2 op x y) =
      okSize st (.map2 op x y) + (budgetOf st x + budgetOf st y) := by
  simp [budgetOf, subnodesList, List.sum_append]

theorem budgetOf_mapScalar (st : Storage) (op : BinOp) (k : Int) (x : TaskNode) :
    budgetOf st (.mapScalar op k x) = okSize st (.mapScalar op k x) + budgetOf st x := by
  simp [budgetOf, subnodesList]

theorem budgetOf_reduce (st : Storage) (op : RedOp) (x : TaskNode) :
    budgetOf st (.reduce op x) = okSize st (.reduce op x) + budgetOf st x := by
  simp [budgetOf, subnodesList]

theorem budgetOf_concat (st : Storage) (x y : TaskNode) :
    budgetOf st (.concat x y) =
      okSize st (.concat x y) + (budgetOf st x + budgetOf st y) := by
  simp [budgetOf, subnodesList, List.sum_append]

theorem budgetOf_slice (st : Storage) (i j : Nat) (x : TaskNode) :
    budgetOf st (.slice i j x) = okSize st (.slice i j x) + budgetOf st x := by
  simp [budgetOf, subnodesList]

/-- The fit condition of a `put` that is guaranteed not to evict. -/
def fitsB (fp : Nat) (v : Chunks) (c : GlobalCache) : Prop :=
  usageOf (c.entries.filter (fun e => e.fp ≠ fp)) + chunksSize v ≤ c.capacityBytes

theorem fits_of_usage {fp : Nat} {v : Chunks} {c : GlobalCache}
    (h : usage c + chunksSize v ≤ c.capacityBytes) : fitsB fp v c :=
  le_trans (Nat.add_le_add_right (usageOf_filter_le (fun e => e.fp ≠ fp) c.entries) _) h

theorem usage_put_of_fits {fp : Nat} {v : Chunks} {c : GlobalCache} (hfit : fitsB fp v c) :
    usage (cachePut fp v c) ≤ usage c + chunksSize v := by
  rw [cachePut_of_fits hfit]
  have h1 := usageOf_filter_le (fun e => e.fp ≠ fp) c.entries
  have h2 : usageOf [putEntry fp v c] = chunksSize v := by
    simp [usageOf, putEntry]
  show usageOf (c.entries.filter (fun e => e.fp ≠ fp) ++ [putEntry fp v c]) ≤
    usage c + chunksSize v
  rw [usageOf_append, h2]
  unfold usage
  omega

theorem contains_put_iff {fp : Nat} {v : Chunks} {c : GlobalCache} (hfit : fitsB fp v c)
    (g : Nat) :
    containsFpB (cachePut fp v c) g = true ↔ (g = fp ∨ containsFpB c g = true) := by
  rw [cachePut_of_fits hfit]
  constructor
  · intro h
    rcases containsFpB_iff.1 h with ⟨e, he, hfp2⟩
    rcases List.mem_append.1 he with h1 | h1
    · exact Or.inr (containsFpB_iff.2 ⟨e, List.mem_of_mem_filter h1, hfp2⟩)
    · simp only [List.mem_singleton] at h1
      subst h1
      exact Or.inl hfp2.symm
  · intro h
    rcases h with rfl | h
    · exact containsFpB_iff.2 ⟨putEntry g v c, List.mem_append_right _ (by simp), rfl⟩
    · rcases containsFpB_iff.1 h with ⟨e, he, hfp2⟩
      by_cases hefp : e.fp = fp
      · exact containsFpB_iff.2 ⟨putEntry fp v c, List.mem_append_right _ (by simp),
          by rw [← hfp2, hefp]; rfl⟩
      · exact containsFpB_iff.2 ⟨e, List.mem_append_left _
          (List.mem_filter.2 ⟨he, by simpa using hefp⟩), hfp2⟩

theorem contains_put_self {fp : Nat} {v : Chunks} {c : GlobalCache} (hfit : fitsB fp v c) :
    containsFpB (cachePut fp v c) fp = true :=
  (contains_put_iff hfit fp).2 (Or.inl rfl)

theorem contains_put_mono {fp : Nat} {v : Chunks} {c : GlobalCache} (hfit : fitsB fp v c)
    {g : Nat} (hg : containsFpB c g = true) : containsFpB (cachePut fp v c) g = true :=
  (contains_put_iff hfit g).2 (Or.inr hg)

theorem contains_put_ne {fp : Nat} {v : Chunks} {c : GlobalCache} (hfit : fitsB fp v c)
    {g : Nat} (hg : g ≠ fp) :
    containsFpB (cachePut fp v c) g = containsFpB c g := by
  cases hc : containsFpB c g with
  | true => exact (contains_put_iff hfit g).2 (Or.inr hc)
  | false =>
    cases hp : containsFpB (cachePut fp v c) g with
    | false => rfl
    | true =>
      rcases (contains_put_iff hfit g).1 hp with h | h
      · exact absurd h hg
      · rw [hc] at h
        exact absurd h (by simp)

theorem ccInv_of_contains_eq {c c' : GlobalCache}
    (h : ∀ g, containsFpB c' g = containsFpB c g) (hcc : ccInv c) : ccInv c' := by
  intro m hm p hp
  rw [h] at hm ⊢
  exact hcc m hm p hp

theorem readLogInv_of {s s' : EvalState} (hlog : s'.log = s.log)
    (h : ∀ g, containsFpB s'.cache g = containsFpB s.cache g) (hinv : readLogInv s) :
    readLogInv s' := by
  intro f a b dt
  rw [hlog, h]
  exact hinv f a b dt

theorem self_mem_subnodesList (n : TaskNode) : n ∈ subnodesList n := by
  cases n <;> simp [subnodesList]

/-- Coverage closure is preserved when a node whose proper sub-nodes are all
already cached is stored. -/
theorem ccInv_put_node {n : TaskNode} {v0 : Chunks} {c : GlobalCache}
    (hcc : ccInv c) (hfit : fitsB (fingerprint n) v0 c)
    (hsub : ∀ p ∈ subnodesList n, p = n ∨ containsFpB c (fingerprint p) = true) :
    ccInv (cachePut (fingerprint n) v0 c) := by
  intro m hm p hp
  rw [contains_put_iff hfit] at hm ⊢
  rcases hm with hm | hm
  · have hmn : m = n := fingerprint_inj hm
    subst hmn
    rcases hsub p hp with rfl | hcov
    · exact Or.inl rfl
    · exact Or.inr hcov
  · exact Or.inr (hcc m hm p hp)

/-- The leaf-read counter invariant survives caching a non-leaf node. -/
theorem readLogInv_put_internal {n : TaskNode} (hn : ∀ f a b dt, n ≠ .read f a b dt)
    {s2 : EvalState} {v0 : Chunks} (hfit : fitsB (fingerprint n) v0 s2.cache)
    (hinv : readLogInv s2) :
    readLogInv { cache := cachePut (fingerprint n) v0 s2.cache, log := s2.log } := by
  intro f a b dt
  have hne : fingerprint (TaskNode.read f a b dt) ≠ fingerprint n := by
    intro h
    exact hn f a b dt (fingerprint_inj h).symm
  have heq := contains_put_ne hfit hne
  simp only [heq]
  exact hinv f a b dt

/-- The leaf-read counter invariant survives a genuine leaf read: the leaf
was not cached, is read exactly once, and becomes cached. -/
theorem readLogInv_read_miss {f a b : Nat} {dt : DType} {s : EvalState} {rows : List Int}
    (hmiss : containsFpB s.cache (fingerprint (.read f a b dt)) = false)
    (hfit : fitsB (fingerprint (.read f a b dt)) [rows] s.cache)
    (hinv : readLogInv s) :
    readLogInv { cache := cachePut (fingerprint (.read f a b dt)) [rows] s.cache,
                 log := s.log ++ [TaskNode.read f a b dt] } := by
  intro f' a' b' dt'
  by_cases hp : TaskNode.read f' a' b' dt' = TaskNode.read f a b dt
  · rw [hp]
    have h0 := hinv f a b dt
    rw [hmiss] at h0
    simp only [Bool.false_eq_true, if_false] at h0
    rw [List.count_append, h0]
    have hc := contains_put_self hfit
    simp [hc]
  · have hne : fingerprint (TaskNode.read f' a' b' dt') ≠
        fingerprint (TaskNode.read f a b dt) := by
      intro h
      exact hp (fingerprint_inj h)
    have heq := contains_put_ne hfit hne
    simp only [heq, List.count_append]
    have hzero : (List.count (TaskNode.read f' a' b' dt') [TaskNode.read f a b dt]) = 0 := by
      rw [List.count_eq_zero]
      simp only [List.mem_singleton]
      intro h
      exact hp h
    rw [hzero]
    simpa using hinv f' a' b' dt'

theorem cacheGet_snd_facts {fp : Nat} {c : GlobalCache} {ob : Option Chunks}
    {c1 : GlobalCache} (h : cacheGet fp c = (ob, c1)) :
    c1.capacityBytes = c.capacityBytes ∧ usage c1 = usage c ∧
      (∀ g, containsFpB c1 g = containsFpB c g) := by
  have h2 : c1 = (cacheGet fp c).2 := by rw [h]
  rw [h2]
  exact ⟨capacity_cacheGet fp c, usage_cacheGet fp c, fun g => contains_cacheGet fp g c⟩

theorem master_hit {n : TaskNode} {s : EvalState} {v0 : Chunks} {c1 : GlobalCache}
    (hget : cacheGet (fingerprint n) s.cache = (some v0, c1)) :
    c1.capacityBytes = s.cache.capacityBytes ∧ usage c1 = usage s.cache ∧
    (∀ g, containsFpB c1 g = containsFpB s.cache g) ∧
    containsFpB c1 (fingerprint n) = true := by
  obtain ⟨⟨e, he, hefp, -⟩, -⟩ := cacheGet_fst_some hget
  have hfacts := cacheGet_snd_facts hget
  refine ⟨hfacts.1, hfacts.2.1, hfacts.2.2, ?_⟩
  rw [hfacts.2.2]
  exact containsFpB_iff.2 ⟨e, he, hefp⟩

theorem master_hit_full {st : Storage} {n : TaskNode} {s : EvalState} {v0 : Chunks}
    {c1 : GlobalCache} (hget : cacheGet (fingerprint n) s.cache = (some v0, c1)) :
    c1.capacityBytes = s.cache.capacityBytes ∧
    usage c1 ≤ usage s.cache + budgetOf st n ∧
    (∀ g, containsFpB s.cache g = true → containsFpB c1 g = true) ∧
    (ccInv s.cache → ccInv c1) ∧
    (readLogInv s → readLogInv { s with cache := c1 }) ∧
    containsFpB c1 (fingerprint n) = true := by
  obtain ⟨hcap, husage, hcont, hself⟩ := master_hit hget
  exact ⟨hcap, by rw [husage]; omega, fun g hg => by rw [hcont]; exact hg,
    fun hcc => ccInv_of_contains_eq hcont hcc,
    fun hrl => @readLogInv_of s { s with cache := c1 } rfl hcont hrl, hself⟩

/-- Master accounting lemma: a successful cached evaluation under a cache
budget covering the whole working set keeps the capacity, grows the usage
at most by the working set, never evicts (cached fingerprints persist),
preserves coverage closure and the leaf-read counter invariant, and leaves
the evaluated node cached. -/
theorem evalNode_master (st : Storage) :
    ∀ (n : TaskNode) (s : EvalState) (v : Chunks) (s' : EvalState),
    coherent st s.cache →
    usage s.cache + budgetOf st n ≤ s.cache.capacityBytes →
    evalNode st n s = .ok (v, s') →
    s'.cache.capacityBytes = s.cache.capacityBytes ∧
    usage s'.cache ≤ usage s.cache + budgetOf st n ∧
    (∀ g, containsFpB s.cache g = true → containsFpB s'.cache g = true) ∧
    (ccInv s.cache → ccInv s'.cache) ∧
    (readLogInv s → readLogInv s') ∧
    containsFpB s'.cache (fingerprint n) = true := by
  intro n
  induction n with
  | read f a b dt =>
    intro s v s' hcoh hbud hok
    simp only [evalNode] at hok
    unfold withCache at hok
    split at hok
    next v0 c1 hget =>
      simp only [Except.ok.injEq, Prod.mk.injEq] at hok
      obtain ⟨hv, hs⟩ := hok
      subst hv
      subst hs
      exact master_hit_full hget
    next c1 hget =>
      obtain ⟨hc1, hmiss⟩ := cacheGet_fst_none hget
      subst hc1
      rw [show ({ s with cache := s.cache } : EvalState) = s from rfl] at hok
      split at hok
      · exact absurd hok (by simp)
      next v0 s2 hkres =>
        simp only [Except.ok.injEq, Prod.mk.injEq] at hok
        obtain ⟨hv, hs⟩ := hok
        subst hv
        subst hs
        cases hr : readRange st f a b with
        | none =>
          simp only [hr] at hkres
          exact absurd hkres (by simp)
        | some rows =>
          simp only [hr, Except.ok.injEq, Prod.mk.injEq] at hkres
          obtain ⟨hv0, hs2⟩ := hkres
          subst hv0
          subst hs2
          have hdn : denote st (.read f a b dt) = .ok [rows] := by
            simp only [denote, hr]
          have hsz : chunksSize [rows] = okSize st (.read f a b dt) :=
            (okSize_of_denote_ok hdn).symm
          rw [budgetOf_read] at hbud
          have hfitu : usage s.cache + chunksSize [rows] ≤ s.cache.capacityBytes := by
            omega
          have hfit : fitsB (fingerprint (.read f a b dt)) [rows] s.cache :=
            fits_of_usage hfitu
          refine ⟨capacity_cachePut _ _ _, ?_, ?_, ?_, ?_, contains_put_self hfit⟩
          · show usage (cachePut (fingerprint (.read f a b dt)) [rows] s.cache) ≤
              usage s.cache + budgetOf st (.read f a b dt)
            have hup := usage_put_of_fits hfit
            rw [budgetOf_read]
            omega
          · intro g hg
            exact contains_put_mono hfit hg
          · intro hcc
            apply ccInv_put_node hcc hfit
            intro p hp
            simp only [subnodesList, List.mem_singleton] at hp
            exact Or.inl hp
          · intro hrl
            exact readLogInv_read_miss hmiss hfit hrl
  | map2 op x y ihx ihy =>
    intro s v s' hcoh hbud hok
    simp only [evalNode] at hok
    unfold withCache at hok
    split at hok
    next v0 c1 hget =>
      simp only [Except.ok.injEq, Prod.mk.injEq] at hok
      obtain ⟨hv, hs⟩ := hok
      subst hv
      subst hs
      exact master_hit_full hget
    next c1 hget =>
      obtain ⟨hc1, hmiss⟩ := cacheGet_fst_none hget
      subst hc1
      rw [show ({ s with cache := s.cache } : EvalState) = s from rfl] at hok
      split at hok
      · exact absurd hok (by simp)
      next v0 s2 hkres =>
        simp only [Except.ok.injEq, Prod.mk.injEq] at hok
        obtain ⟨hv, hs⟩ := hok
        subst hv
        subst hs
        cases hx : evalNode st x s with
        | error er =>
          simp only [hx] at hkres
          exact absurd hkres (by simp)
        | ok p =>
          rcases p with ⟨va, sa⟩
          cases hy : evalNode st y sa with
          | error er =>
            simp only [hx, hy] at hkres
            exact absurd hkres (by simp)
          | ok q =>
            rcases q with ⟨vb, sb⟩
            cases hex : execMap2 op (fingerprint (.map2 op x y)) va vb with
            | error er =>
              simp only [hx, hy, hex] at hkres
              exact absurd hkres (by simp)
            | ok v1 =>
              simp only [hx, hy, hex, Except.ok.injEq, Prod.mk.injEq] at hkres
              obtain ⟨hv1, hs2⟩ := hkres
              subst hs2
              have hsx := (evalNode_sound st x s hcoh).1 va sa hx
              have hdx := hsx.1
              have hca := hsx.2
              have hsy := (evalNode_sound st y sa hca).1 vb sb hy
              have hdy := hsy.1
              have hdn : denote st (.map2 op x y) = .ok v0 := by
                simp only [denote, hdx, hdy, hex, hv1]
              have hsz : chunksSize v0 = okSize st (.map2 op x y) :=
                (okSize_of_denote_ok hdn).symm
              rw [budgetOf_map2] at hbud
              have hbx : usage s.cache + budgetOf st x ≤ s.cache.capacityBytes := by omega
              obtain ⟨mx_cap, mx_use, mx_mono, mx_cc, mx_rl, mx_self⟩ :=
                ihx s va sa hcoh hbx hx
              have hby : usage sa.cache + budgetOf st y ≤ sa.cache.capacityBytes := by
                rw [mx_cap]
                omega
              obtain ⟨my_cap, my_use, my_mono, my_cc, my_rl, my_self⟩ :=
                ihy sa vb sb hca hby hy
              have hcap2 : sb.cache.capacityBytes = s.cache.capacityBytes :=
                my_cap.trans mx_cap
              have hfitu : usage sb.cache + chunksSize v0 ≤ sb.cache.capacityBytes := by
                rw [hcap2]
                omega
              have hfit : fitsB (fingerprint (.map2 op x y)) v0 sb.cache :=
                fits_of_usage hfitu
              refine ⟨(capacity_cachePut _ _ _).trans hcap2, ?_, ?_, ?_, ?_,
                contains_put_self hfit⟩
              · show usage (cachePut (fingerprint (.map2 op x y)) v0 sb.cache) ≤
                  usage s.cache + budgetOf st (.map2 op x y)
                have hup := usage_put_of_fits hfit
                rw [budgetOf_map2]
                omega
              · intro g hg
                exact contains_put_mono hfit (my_mono g (mx_mono g hg))
              · intro hcc
                have hcca := mx_cc hcc
                have hccb := my_cc hcca
                apply ccInv_put_node hccb hfit
                intro p hp
                simp only [subnodesList, List.mem_cons, List.mem_append] at hp
                rcases hp with rfl | hp | hp
                · exact Or.inl rfl
                · exact Or.inr (my_mono _ (hcca x mx_self p hp))
                · exact Or.inr (hccb y my_self p hp)
              · intro hrl
                exact readLogInv_put_internal (fun f a b dt h => TaskNode.noConfusion h)
                  hfit (my_rl (mx_rl hrl))
  | mapScalar op k x ihx =>
    intro s v s' hcoh hbud hok
    simp only [evalNode] at hok
    unfold withCache at hok
    split at hok
    next v0 c1 hget =>
      simp only [Except.ok.injEq, Prod.mk.injEq] at hok
      obtain ⟨hv, hs⟩ := hok
      subst hv
      subst hs
      exact master_hit_full hget
    next c1 hget =>
      obtain ⟨hc1, hmiss⟩ := cacheGet_fst_none hget
      subst hc1
      rw [show ({ s with cache := s.cache } : EvalState) = s from rfl] at hok
      split at hok
      · exact absurd hok (by simp)
      next v0 s2 hkres =>
        simp only [Except.ok.injEq, Prod.mk.injEq] at hok
        obtain ⟨hv, hs⟩ := hok
        subst hv
        subst hs
        cases hx : evalNode st x s with
        | error er =>
          simp only [hx] at hkres
          exact absurd hkres (by simp)
        | ok p =>
          rcases p with ⟨va, sa⟩
          cases hex : execScalar op k (fingerprint (.mapScalar op k x)) va with
          | error er =>
            simp only [hx, hex] at hkres
            exact absurd hkres (by simp)
          | ok v1 =>
            simp only [hx, hex, Except.ok.injEq, Prod.mk.injEq] at hkres
            obtain ⟨hv1, hs2⟩ := hkres
            subst hs2
            have hsx := (evalNode_sound st x s hcoh).1 va sa hx
            have hdx := hsx.1
            have hdn : denote st (.mapScalar op k x) = .ok v0 := by
              simp only [denote, hdx, hex, hv1]
            have hsz : chunksSize v0 = okSize st (.mapScalar op k x) :=
              (okSize_of_denote_ok hdn).symm
            rw [budgetOf_mapScalar] at hbud
            have hbx : usage s.cache + budgetOf st x ≤ s.cache.capacityBytes := by omega
            obtain ⟨mx_cap, mx_use, mx_mono, mx_cc, mx_rl, mx_self⟩ :=
              ihx s va sa hcoh hbx hx
            have hfitu : usage sa.cache + chunksSize v0 ≤ sa.cache.capacityBytes := by
              rw [mx_cap]
              omega
            have hfit : fitsB (fingerprint (.mapScalar op k x)) v0 sa.cache :=
              fits_of_usage hfitu
            refine ⟨(capacity_cachePut _ _ _).trans mx_cap, ?_, ?_, ?_, ?_,
              contains_put_self hfit⟩
            · show usage (cachePut (fingerprint (.mapScalar op k x)) v0 sa.cache) ≤
                usage s.cache + budgetOf st (.mapScalar op k x)
              have hup := usage_put_of_fits hfit
              rw [budgetOf_mapScalar]
              omega
            · intro g hg
              exact contains_put_mono hfit (mx_mono g hg)
            · intro hcc
              have hcca := mx_cc hcc
              apply ccInv_put_node hcca hfit
              intro p hp
              simp only [subnodesList, List.mem_cons] at hp
              rcases hp with rfl | hp
              · exact Or.inl rfl
              · exact Or.inr (hcca x mx_self p hp)
            · intro hrl
              exact readLogInv_put_internal (fun f a b dt h => TaskNode.noConfusion h)
                hfit (mx_rl hrl)
  | reduce op x ihx =>
    intro s v s' hcoh hbud hok
    simp only [evalNode] at hok
    unfold withCache at hok
    split at hok
    next v0 c1 hget =>
      simp only [Except.ok.injEq, Prod.mk.injEq] at hok
      obtain ⟨hv, hs⟩ := hok
      subst hv
      subst hs
      exact master_hit_full hget
    next c1 hget =>
      obtain ⟨hc1, hmiss⟩ := cacheGet_fst_none hget
      subst hc1
      rw [show ({ s with cache := s.cache } : EvalState) = s from rfl] at hok
      split at hok
      · exact absurd hok (by simp)
      next v0 s2 hkres =>
        simp only [Except.ok.injEq, Prod.mk.injEq] at hok
        obtain ⟨hv, hs⟩ := hok
        subst hv
        subst hs
        cases hx : evalNode st x s with
        | error er =>
          simp only [hx] at hkres
          exact absurd hkres (by simp)
        | ok p =>
          rcases p with ⟨va, sa⟩
          cases hex : execReduce op (fingerprint (.reduce op x)) va with
          | error er =>
            simp only [hx, hex] at hkres
            exact absurd hkres (by simp)
          | ok v1 =>
            simp only [hx, hex, Except.ok.injEq, Prod.mk.injEq] at hkres
            obtain ⟨hv1, hs2⟩ := hkres
            subst hs2
            have hsx := (evalNode_sound st x s hcoh).1 va sa hx
            have hdx := hsx.1
            have hdn : denote st (.reduce op x) = .ok v0 := by
              simp only [denote, hdx, hex, hv1]
            have hsz : chunksSize v0 = okSize st (.reduce op x) :=
              (okSize_of_denote_ok hdn).symm
            rw [budgetOf_reduce] at hbud
            have hbx : usage s.cache + budgetOf st x ≤ s.cache.capacityBytes := by omega
            obtain ⟨mx_cap, mx_use, mx_mono, mx_cc, mx_rl, mx_self⟩ :=
              ihx s va sa hcoh hbx hx
            have hfitu : usage sa.cache + chunksSize v0 ≤ sa.cache.capacityBytes := by
              rw [mx_cap]
              omega
            have hfit : fitsB (fingerprint (.reduce op x)) v0 sa.cache :=
              fits_of_usage hfitu
            refine ⟨(capacity_cachePut _ _ _).trans mx_cap, ?_, ?_, ?_, ?_,
              contains_put_self hfit⟩
            · show usage (cachePut (fingerprint (.reduce op x)) v0 sa.cache) ≤
                usage s.cache + budgetOf st (.reduce op x)
              have hup := usage_put_of_fits hfit
              rw [budgetOf_reduce]
              omega
            · intro g hg
              exact contains_put_mono hfit (mx_mono g hg)
            · intro hcc
              have hcca := mx_cc hcc
              apply ccInv_put_node hcca hfit
              intro p hp
              simp only [subnodesList, List.mem_cons] at hp
              rcases hp with rfl | hp
              · exact Or.inl rfl
              · exact Or.inr (hcca x mx_self p hp)
            · intro hrl
              exact readLogInv_put_internal (fun f a b dt h => TaskNode.noConfusion h)
                hfit (mx_rl hrl)
  | concat x y ihx ihy =>
    intro s v s' hcoh hbud hok
    simp only [evalNode] at hok
    unfold withCache at hok
    split at hok
    next v0 c1 hget =>
      simp only [Except.ok.injEq, Prod.mk.injEq] at hok
      obtain ⟨hv, hs⟩ := hok
      subst hv
      subst hs
      exact master_hit_full hget
    next c1 hget =>
      obtain ⟨hc1, hmiss⟩ := cacheGet_fst_none hget
      subst hc1
      rw [show ({ s with cache := s.cache } : EvalState) = s from rfl] at hok
      split at hok
      · exact absurd hok (by simp)
      next v0 s2 hkres =>
        simp only [Except.ok.injEq, Prod.mk.injEq] at hok
        obtain ⟨hv, hs⟩ := hok
        subst hv
        subst hs
        cases hx : evalNode st x s with
        | error er =>
          simp only [hx] at hkres
          exact absurd hkres (by simp)
        | ok p =>
          rcases p with ⟨va, sa⟩
          cases hy : evalNode st y sa with
          | error er =>
            simp only [hx, hy] at hkres
            exact absurd hkres (by simp)
          | ok q =>
            rcases q with ⟨vb, sb⟩
            simp only [hx, hy, Except.ok.injEq, Prod.mk.injEq] at hkres
            obtain ⟨hv1, hs2⟩ := hkres
            subst hs2
            have hsx := (evalNode_sound st x s hcoh).1 va sa hx
            have hdx := hsx.1
            have hca := hsx.2
            have hsy := (evalNode_sound st y sa hca).1 vb sb hy
            have hdy := hsy.1
            have hdn : denote st (.concat x y) = .ok v0 := by
              simp only [denote, hdx, hdy, hv1]
            have hsz : chunksSize v0 = okSize st (.concat x y) :=
              (okSize_of_denote_ok hdn).symm
            rw [budgetOf_concat] at hbud
            have hbx : usage s.cache + budgetOf st x ≤ s.cache.capacityBytes := by omega
            obtain ⟨mx_cap, mx_use, mx_mono, mx_cc, mx_rl, mx_self⟩ :=
              ihx s va sa hcoh hbx hx
            have hby : usage sa.cache + budgetOf st y ≤ sa.cache.capacityBytes := by
              rw [mx_cap]
              omega
            obtain ⟨my_cap, my_use, my_mono, my_cc, my_rl, my_self⟩ :=
              ihy sa vb sb hca hby hy
            have hcap2 : sb.cache.capacityBytes = s.cache.capacityBytes :=
              my_cap.trans mx_cap
            have hfitu : usage sb.cache + chunksSize v0 ≤ sb.cache.capacityBytes := by
              rw [hcap2]
              omega
            have hfit : fitsB (fingerprint (.concat x y)) v0 sb.cache :=
              fits_of_usage hfitu
            refine ⟨(capacity_cachePut _ _ _).trans hcap2, ?_, ?_, ?_, ?_,
              contains_put_self hfit⟩
            · show usage (cachePut (fingerprint (.concat x y)) v0 sb.cache) ≤
                usage s.cache + budgetOf st (.concat x y)
              have hup := usage_put_of_fits hfit
              rw [budgetOf_concat]
              omega
            · intro g hg
              exact contains_put_mono hfit (my_mono g (mx_mono g hg))
            · intro hcc
              have hcca := mx_cc hcc
              have hccb := my_cc hcca
              apply ccInv_put_node hccb hfit
              intro p hp
              simp only [subnodesList, List.mem_cons, List.mem_append] at hp
              rcases hp with rfl | hp | hp
              · exact Or.inl rfl
              · exact Or.inr (my_mono _ (hcca x mx_self p hp))
              · exact Or.inr (hccb y my_self p hp)
            · intro hrl
              exact readLogInv_put_internal (fun f a b dt h => TaskNode.noConfusion h)
                hfit (my_rl (mx_rl hrl))
  | slice i j x ihx =>
    intro s v s' hcoh hbud hok
    simp only [evalNode] at hok
    unfold withCache at hok
    split at hok
    next v0 c1 hget =>
      simp only [Except.ok.injEq, Prod.mk.injEq] at hok
      obtain ⟨hv, hs⟩ := hok
      subst hv
      subst hs
      exact master_hit_full hget
    next c1 hget =>
      obtain ⟨hc1, hmiss⟩ := cacheGet_fst_none hget
      subst hc1
      rw [show ({ s with cache := s.cache } : EvalState) = s from rfl] at hok
      split at hok
      · exact absurd hok (by simp)
      next v0 s2 hkres =>
        simp only [Except.ok.injEq, Prod.mk.injEq] at hok
        obtain ⟨hv, hs⟩ := hok
        subst hv
        subst hs
        cases hx : evalNode st x s with
        | error er =>
          simp only [hx] at hkres
          exact absurd hkres (by simp)
        | ok p =>
          rcases p with ⟨va, sa⟩
          simp only [hx, Except.ok.injEq, Prod.mk.injEq] at hkres
          obtain ⟨hv1, hs2⟩ := hkres
          subst hs2
          have hsx := (evalNode_sound st x s hcoh).1 va sa hx
          have hdx := hsx.1
          have hdn : denote st (.slice i j x) = .ok v0 := by
            simp only [denote, hdx, hv1]
          have hsz : chunksSize v0 = okSize st (.slice i j x) :=
            (okSize_of_denote_ok hdn).symm
          rw [budgetOf_slice] at hbud
          have hbx : usage s.cache + budgetOf st x ≤ s.cache.capacityBytes := by omega
          obtain ⟨mx_cap, mx_use, mx_mono, mx_cc, mx_rl, mx_self⟩ :=
            ihx s va sa hcoh hbx hx
          have hfitu : usage sa.cache + chunksSize v0 ≤ sa.cache.capacityBytes := by
            rw [mx_cap]
            omega
          have hfit : fitsB (fingerprint (.slice i j x)) v0 sa.cache :=
            fits_of_usage hfitu
          refine ⟨(capacity_cachePut _ _ _).trans mx_cap, ?_, ?_, ?_, ?_,
            contains_put_self hfit⟩
          · show usage (cachePut (fingerprint (.slice i j x)) v0 sa.cache) ≤
              usage s.cache + budgetOf st (.slice i j x)
            have hup := usage_put_of_fits hfit
            rw [budgetOf_slice]
            omega
          · intro g hg
            exact contains_put_mono hfit (mx_mono g hg)
          · intro hcc
            have hcca := mx_cc hcc
            apply ccInv_put_node hcca hfit
            intro p hp
            simp only [subnodesList, List.mem_cons] at hp
            rcases hp with rfl | hp
            · exact Or.inl rfl
            · exact Or.inr (hcca x mx_self p hp)
          · intro hrl
            exact readLogInv_put_internal (fun f a b dt h => TaskNode.noConfusion h)
              hfit (mx_rl hrl)

theorem cacheGet_hit_of_contains {fp : Nat} {c : GlobalCache}
    (hc : containsFpB c fp = true) :
    ∃ b, cacheGet fp c =
      (some b, { c with clock := c.clock + 1, entries := touch fp c.clock c.entries }) := by
  cases hfind : c.entries.find? (fun e => e.fp = fp) with
  | none =>
    exfalso
    rcases containsFpB_iff.1 hc with ⟨e, he, hfp⟩
    rw [List.find?_eq_none] at hfind
    exact hfind e he (by simpa using hfp)
  | some e =>
    exact ⟨e.bytes, by simp [cacheGet, hfind]⟩

theorem withCache_hit {fp : Nat} {s : EvalState}
    {k : EvalState → Except EvalError (Chunks × EvalState)}
    (hc : containsFpB s.cache fp = true) :
    ∃ v c1, withCache fp s k = .ok (v, { s with cache := c1 }) ∧
      (∀ g, containsFpB c1 g = containsFpB s.cache g) := by
  obtain ⟨b, hget⟩ := cacheGet_hit_of_contains hc
  refine ⟨b, { s.cache with clock := s.cache.clock + 1, entries := touch fp s.cache.clock s.cache.entries }, ?_, ?_⟩
  · unfold withCache
    rw [hget]
  · exact (cacheGet_snd_facts hget).2.2

theorem evalNode_eq_withCache (st : Storage) (n : TaskNode) (s : EvalState) :
    ∃ k, evalNode st n s = withCache (fingerprint n) s k := by
  cases n <;> exact ⟨_, rfl⟩

/-- A cache hit at the root makes re-evaluation pure bookkeeping: the same
state comes back with only a recency update and, in particular, the
leaf-read log is untouched — a rerun performs zero additional reads. -/
theorem evalNode_rerun (st : Storage) (n : TaskNode) (s : EvalState)
    (hc : containsFpB s.cache (fingerprint n) = true) :
    ∃ v c1, evalNode st n s = .ok (v, { s with cache := c1 }) ∧
      (∀ g, containsFpB c1 g = containsFpB s.cache g) := by
  obtain ⟨k, hk⟩ := evalNode_eq_withCache st n s
  rw [hk]
  exact withCache_hit hc

/-! ### C3 supporting lemmas: sequences of calls and eviction order -/

theorem cacheInv_applyOps : ∀ (ops : List CacheOp) (c : GlobalCache), cacheInv c →
    cacheInv (applyCacheOps c ops) := by
  intro ops
  induction ops with
  | nil => intro c h; exact h
  | cons op rest ih =>
    intro c h
    have h1 : cacheInv (applyCacheOp c op) := by
      cases op with
      | put fp v => exact cacheInv_put fp v h
      | get fp => exact cacheInv_get fp h
      | resize newCap => exact cacheInv_resize newCap c
      | clear => exact cacheInv_clear c
    exact ih (applyCacheOp c op) h1

theorem clockSorted_fresh (cap : Nat) : clockSorted (freshCache cap) := by
  constructor
  · exact List.Pairwise.nil
  · intro e he
    exact absurd he (List.not_mem_nil e)

theorem clockSorted_put (fp : Nat) (v : Chunks) {c : GlobalCache} (h : clockSorted c) :
    clockSorted (cachePut fp v c) := by
  obtain ⟨hpw, hclk⟩ := h
  unfold cachePut
  split
  · exact ⟨hpw, hclk⟩
  · constructor
    · apply List.Pairwise.sublist (evictUntil_sublist _ _)
      apply List.pairwise_append.2
      refine ⟨hpw.sublist (List.filter_sublist _), by simp, ?_⟩
      intro e he e' he'
      simp only [List.mem_singleton] at he'
      subst he'
      exact hclk e (List.mem_of_mem_filter he)
    · intro e he
      rcases List.mem_append.1 ((evictUntil_sublist _ _).subset he) with h1 | h1
      · have h2 := hclk e (List.mem_of_mem_filter h1)
        show e.lastAccess < c.clock + 1
        omega
      · simp only [List.mem_singleton] at h1
        subst h1
        show (putEntry fp v c).lastAccess < c.clock + 1
        simp [putEntry]

theorem clockSorted_head_lruLe {c : GlobalCache} (h : clockSorted c) {e1 : CacheEntry}
    {rest : List CacheEntry} (hent : c.entries = e1 :: rest) :
    ∀ e ∈ rest, lruLe e1 e = true := by
  obtain ⟨hpw, -⟩ := h
  rw [hent] at hpw
  intro e he
  have hlt := (List.pairwise_cons.1 hpw).1 e he
  simp only [lruLe, Bool.or_eq_true, decide_eq_true_eq]
  exact Or.inl hlt

theorem evict_head_first {e1 : CacheEntry} {rest : List CacheEntry} {cap : Nat}
    (hover : usageOf (e1 :: rest) > cap) (hmin : ∀ e ∈ rest, lruLe e1 e = true)
    (hnot : e1 ∉ rest) :
    removeLRU (e1 :: rest) = rest ∧ e1 ∉ evictUntil cap (e1 :: rest) := by
  have h1 : removeLRU (e1 :: rest) = rest := removeLRU_head hmin
  refine ⟨h1, ?_⟩
  intro hmem
  have h2 : evictUntil cap (e1 :: rest) = evictLoop rest.length cap rest := by
    show evictLoop (e1 :: rest).length cap (e1 :: rest) = _
    simp only [List.length_cons, evictLoop]
    rw [if_neg (by omega), h1]
  rw [h2] at hmem
  exact hnot ((evictLoop_sublist _ _ _).subset hmem)

/-! ## Claim theorems -/

/-- C5: `resize(X)` sets the capacity to `X`, never raises (it is a total
function), and when `X` is below the current usage it evicts
least-recently-used entries until `usage ≤ X`; entries are only evicted,
never altered, and a resize that still fits evicts nothing. -/
theorem C5_resize_down_evicts_never_fails (c : GlobalCache) (newCap : Nat) :
    (cacheResize newCap c).capacityBytes = newCap ∧
    usage (cacheResize newCap c) ≤ newCap ∧
    (cacheResize newCap c).entries.Sublist c.entries ∧
    (usage c ≤ newCap → (cacheResize newCap c).entries = c.entries) := by
  refine ⟨rfl, ?_, ?_, ?_⟩
  · exact usage_evictUntil_le newCap c.entries
  · exact evictUntil_sublist newCap c.entries
  · intro h
    exact evictUntil_of_le h

/-- C5 witness: resizing a concrete two-entry cache from capacity 10 down
to 3 keeps usage under the new capacity. -/
theorem C5_resize_down_witness :
    (cacheResize 3 { capacityBytes := 10, clock := 2, entries :=
      [{ fp := 1, bytes := [[1, 2]], sizeBytes := 2, lastAccess := 0, insertedAt := 0 },
       { fp := 2, bytes := [[3, 4, 5]], sizeBytes := 3, lastAccess := 1, insertedAt := 1 }] }).capacityBytes = 3 ∧
    usage (cacheResize 3 { capacityBytes := 10, clock := 2, entries :=
      [{ fp := 1, bytes := [[1, 2]], sizeBytes := 2, lastAccess := 0, insertedAt := 0 },
       { fp := 2, bytes := [[3, 4, 5]], sizeBytes := 3, lastAccess := 1, insertedAt := 1 }] }) ≤ 3 ∧
    (cacheResize 3 { capacityBytes := 10, clock := 2, entries :=
      [{ fp := 1, bytes := [[1, 2]], sizeBytes := 2, lastAccess := 0, insertedAt := 0 },
       { fp := 2, bytes := [[3, 4, 5]], sizeBytes := 3, lastAccess := 1, insertedAt := 1 }] }).entries.Sublist
      [{ fp := 1, bytes := [[1, 2]], sizeBytes := 2, lastAccess := 0, insertedAt := 0 },
       { fp := 2, bytes := [[3, 4, 5]], sizeBytes := 3, lastAccess := 1, insertedAt := 1 }] ∧
    (usage { capacityBytes := 10, clock := 2, entries :=
      [{ fp := 1, bytes := [[1, 2]], sizeBytes := 2, lastAccess := 0, insertedAt := 0 },
       { fp := 2, bytes := [[3, 4, 5]], sizeBytes := 3, lastAccess := 1, insertedAt := 1 }] } ≤ 3 →
      (cacheResize 3 { capacityBytes := 10, clock := 2, entries :=
        [{ fp := 1, bytes := [[1, 2]], sizeBytes := 2, lastAccess := 0, insertedAt := 0 },
         { fp := 2, bytes := [[3, 4, 5]], sizeBytes := 3, lastAccess := 1, insertedAt := 1 }] }).entries =
        [{ fp := 1, bytes := [[1, 2]], sizeBytes := 2, lastAccess := 0, insertedAt := 0 },
         { fp := 2, bytes := [[3, 4, 5]], sizeBytes := 3, lastAccess := 1, insertedAt := 1 }]) :=
  C5_resize_down_evicts_never_fails _ 3

/-- C4 counterexample: the claim quantifies over every cache state, but
when the fingerprint is already stored (from an earlier, smaller payload)
an oversized `put` bypasses the cache leaving the old entry in place, so
the subsequent `get` HITS (returning the old payload) instead of missing. -/
theorem C4_counterexample :
    chunksSize [[1, 2, 3, 4, 5, 6, 7, 8, 9, 10, 11]] >
      (cachePut 5 [[1, 2]] (freshCache 10)).capacityBytes ∧
    (cacheGet 5 (cachePut 5 [[1, 2, 3, 4, 5, 6, 7, 8, 9, 10, 11]]
      (cachePut 5 [[1, 2]] (freshCache 10)))).1 = some [[1, 2]] := by
  constructor
  · decide
  · decide

/-- C4 (amended): an oversized `put` raises no error (it is a total
function) and leaves the cache entirely unchanged; when the fingerprint is
not already stored, a subsequent `get` for it misses. -/
theorem C4_oversized_bypass (c : GlobalCache) (fp : Nat) (v : Chunks)
    (h : chunksSize v > c.capacityBytes) :
    cachePut fp v c = c ∧
      (containsFpB c fp = false → (cacheGet fp (cachePut fp v c)).1 = none) := by
  have hbp : cachePut fp v c = c := by
    unfold cachePut
    rw [if_pos h]
  refine ⟨hbp, ?_⟩
  intro hmiss
  rw [hbp, cacheGet_of_contains_false hmiss]

/-- C4 witness: an oversized payload bypasses a fresh (empty) cache and the
following lookup misses. -/
theorem C4_oversized_bypass_witness :
    chunksSize [[1, 2, 3]] > (freshCache 2).capacityBytes ∧
      (cachePut 7 [[1, 2, 3]] (freshCache 2) = freshCache 2 ∧
        (containsFpB (freshCache 2) 7 = false →
          (cacheGet 7 (cachePut 7 [[1, 2, 3]] (freshCache 2))).1 = none)) :=
  ⟨by decide, C4_oversized_bypass (freshCache 2) 7 [[1, 2, 3]] (by decide)⟩

/-- C3: after every mutating `GlobalCache` call (any sequence of `put`,
`get`, `resize`, `clear`) the stored bytes stay within the capacity;
eviction is strict least-recently-used with ties broken by insertion
order: a put-only call sequence (none re-accessed) keeps the entry list
sorted by access time in insertion order, the sorted head is
`lruLe`-minimal, and when eviction fires the first entry inserted, `e1`,
is evicted first. -/
theorem C3_lru_invariant_eviction_order :
    (∀ (ops : List CacheOp) (c : GlobalCache), cacheInv c →
      cacheInv (applyCacheOps c ops)) ∧
    (∀ cap : Nat, cacheInv (freshCache cap) ∧ clockSorted (freshCache cap)) ∧
    (∀ (fp : Nat) (v : Chunks) (c : GlobalCache), clockSorted c →
      clockSorted (cachePut fp v c)) ∧
    (∀ (c : GlobalCache) (e1 : CacheEntry) (rest : List CacheEntry), clockSorted c →
      c.entries = e1 :: rest → ∀ e ∈ rest, lruLe e1 e = true) ∧
    (∀ (cap : Nat) (e1 : CacheEntry) (rest : List CacheEntry),
      usageOf (e1 :: rest) > cap → (∀ e ∈ rest, lruLe e1 e = true) → e1 ∉ rest →
      removeLRU (e1 :: rest) = rest ∧ e1 ∉ evictUntil cap (e1 :: rest)) := by
  refine ⟨cacheInv_applyOps, ?_, ?_, ?_, ?_⟩
  · intro cap
    exact ⟨by simp [cacheInv, freshCache, usage, usageOf], clockSorted_fresh cap⟩
  · intro fp v c h
    exact clockSorted_put fp v h
  · intro c e1 rest h hent
    exact clockSorted_head_lruLe h hent
  · intro cap e1 rest hover hmin hnot
    exact evict_head_first hover hmin hnot

/-- C3 witness: a concrete put-put-put-get-resize sequence keeps usage
within capacity, and in a concrete sorted two-entry overflow the first
inserted entry is evicted first. -/
theorem C3_lru_invariant_witness :
    cacheInv (applyCacheOps (freshCache 5)
      [CacheOp.put 1 [[1, 2]], CacheOp.put 2 [[3, 4]], CacheOp.put 3 [[5, 6]],
       CacheOp.get 2, CacheOp.resize 3]) ∧
    (removeLRU
        [{ fp := 1, bytes := [[1, 2]], sizeBytes := 2, lastAccess := 0, insertedAt := 0 },
         { fp := 2, bytes := [[3, 4]], sizeBytes := 2, lastAccess := 1, insertedAt := 1 }] =
      [{ fp := 2, bytes := [[3, 4]], sizeBytes := 2, lastAccess := 1, insertedAt := 1 }] ∧
      ({ fp := 1, bytes := [[1, 2]], sizeBytes := 2, lastAccess := 0, insertedAt := 0 } :
          CacheEntry) ∉
        evictUntil 3
          [{ fp := 1, bytes := [[1, 2]], sizeBytes := 2, lastAccess := 0, insertedAt := 0 },
           { fp := 2, bytes := [[3, 4]], sizeBytes := 2, lastAccess := 1, insertedAt := 1 }]) :=
  ⟨C3_lru_invariant_eviction_order.1 _ _
      (by decide : usage (freshCache 5) ≤ (freshCache 5).capacityBytes),
    C3_lru_invariant_eviction_order.2.2.2.2 3 _ _ (by decide) (by decide) (by decide)⟩

/-! ### C10 supporting lemmas -/

theorem assemble_form (n : TaskNode) (v : Chunks) :
    (ndim n = 0 → ∃ x : Int, assemble n v = .scalar x) ∧
    (ndim n ≠ 0 → ∃ l : List Int, assemble n v = .arr l) := by
  unfold assemble
  constructor
  · intro h
    rw [if_pos h]
    exact ⟨_, rfl⟩
  · intro h
    rw [if_neg h]
    exact ⟨_, rfl⟩

theorem realizeRoot_ok_form {st : Storage} {n : TaskNode} {r : Realized}
    (h : realizeRoot st n = .ok r) :
    (ndim n = 0 → ∃ x : Int, r = .scalar x) ∧ (ndim n ≠ 0 → ∃ l : List Int, r = .arr l) := by
  unfold realizeRoot at h
  cases hd : denote st n with
  | error e =>
    rw [hd] at h
    exact absurd h (by simp)
  | ok v =>
    rw [hd] at h
    simp only [Except.ok.injEq] at h
    subst h
    exact assemble_form n v

theorem denoteList_ok_pointwise (st : Storage) :
    ∀ (ns : List TaskNode) (vs : List Realized), denoteList st ns = .ok vs →
      vs.length = ns.length ∧
      ∀ i (hv : i < vs.length) (hn : i < ns.length),
        realizeRoot st (ns.get ⟨i, hn⟩) = .ok (vs.get ⟨i, hv⟩) := by
  intro ns
  induction ns with
  | nil =>
    intro vs h
    simp only [denoteList, Except.ok.injEq] at h
    subst h
    refine ⟨rfl, ?_⟩
    intro i hv hn
    exact absurd hv (by simp)
  | cons n rest ih =>
    intro vs h
    simp only [denoteList] at h
    cases hr1 : realizeRoot st n with
    | error e =>
      rw [hr1] at h
      exact absurd h (by simp)
    | ok r =>
      rw [hr1] at h
      cases hr2 : denoteList st rest with
      | error e =>
        rw [hr2] at h
        exact absurd h (by simp)
      | ok rs =>
        rw [hr2] at h
        simp only [Except.ok.injEq] at h
        subst h
        obtain ⟨hlen, hpt⟩ := ih rs hr2
        refine ⟨by simp [hlen], ?_⟩
        intro i hv hn
        cases i with
        | zero => exact hr1
        | succ i0 =>
          simp only [List.get_cons_succ]
          exact hpt i0 (by simpa using hv) (by simpa using hn)

/-- C10: batched compute returns per-argument concrete results in argument
order: a successful `evaluate(a1, …, an)` returns exactly `n` realized
results, the `i`-th being the pure reference realization of `a_i`, each a
concrete in-memory value — an array, or a scalar when the result is
zero-dimensional — never a still-deferred node. -/
theorem C10_batched_compute (st : Storage) (args : List ChunkedArray) (c : GlobalCache)
    (hcoh : coherent st c) (vs : List Realized) (c' : GlobalCache)
    (hok : evaluate st args c = (.ok vs, c')) :
    vs.length = args.length ∧
    (∀ i (hv : i < vs.length) (ha : i < args.length),
      realizeRoot st (args.get ⟨i, ha⟩).root = .ok (vs.get ⟨i, hv⟩)) ∧
    (∀ i (hv : i < vs.length) (ha : i < args.length),
      (ndim (args.get ⟨i, ha⟩).root = 0 → ∃ x : Int, vs.get ⟨i, hv⟩ = .scalar x) ∧
      (ndim (args.get ⟨i, ha⟩).root ≠ 0 → ∃ l : List Int, vs.get ⟨i, hv⟩ = .arr l)) := by
  unfold evaluate at hok
  cases h1 : evalList st (args.map ChunkedArray.root) { cache := c, log := [] } with
  | error e =>
    rw [h1] at hok
    simp only [Prod.mk.injEq] at hok
    exact absurd hok.1 (by simp)
  | ok p =>
    rcases p with ⟨vs0, s1⟩
    rw [h1] at hok
    simp only [Prod.mk.injEq] at hok
    obtain ⟨hvs, -⟩ := hok
    simp only [Except.ok.injEq] at hvs
    subst hvs
    have hd := ((evalList_sound st (args.map ChunkedArray.root) _ hcoh).1 vs0 s1 h1).1
    obtain ⟨hlen, hpt⟩ := denoteList_ok_pointwise st _ _ hd
    have hlen2 : vs0.length = args.length := by simpa using hlen
    refine ⟨hlen2, ?_, ?_⟩
    · intro i hv ha
      have := hpt i hv (by simpa using ha)
      rw [List.get_map] at this
      exact this
    · intro i hv ha
      have hre := hpt i hv (by simpa using ha)
      rw [List.get_map] at hre
      exact realizeRoot_ok_form hre

/-- C10 witness: batched compute of a plain column and its min-reduction
over a concrete 3-row file returns, in order, the realized array and the
realized scalar. -/
theorem C10_batched_compute_witness :
    ([Realized.arr [5, 2, 7], Realized.scalar 2].length =
      ([{ root := .read 0 0 3 .f64, layout := [3] },
        { root := .reduce .rmin (.read 0 0 3 .f64), layout := [1] }] : List ChunkedArray).length) ∧
    (∀ i (hv : i < ([Realized.arr [5, 2, 7], Realized.scalar 2] : List Realized).length)
      (ha : i < ([{ root := .read 0 0 3 .f64, layout := [3] },
        { root := .reduce .rmin (.read 0 0 3 .f64), layout := [1] }] : List ChunkedArray).length),
      realizeRoot (fun f => if f = 0 then some [5, 2, 7] else none)
          (([{ root := .read 0 0 3 .f64, layout := [3] },
            { root := .reduce .rmin (.read 0 0 3 .f64), layout := [1] }] :
              List ChunkedArray).get ⟨i, ha⟩).root =
        .ok (([Realized.arr [5, 2, 7], Realized.scalar 2] : List Realized).get ⟨i, hv⟩)) ∧
    (∀ i (hv : i < ([Realized.arr [5, 2, 7], Realized.scalar 2] : List Realized).length)
      (ha : i < ([{ root := .read 0 0 3 .f64, layout := [3] },
        { root := .reduce .rmin (.read 0 0 3 .f64), layout := [1] }] : List ChunkedArray).length),
      (ndim (([{ root := .read 0 0 3 .f64, layout := [3] },
        { root := .reduce .rmin (.read 0 0 3 .f64), layout := [1] }] :
          List ChunkedArray).get ⟨i, ha⟩).root = 0 →
        ∃ x : Int, ([Realized.arr [5, 2, 7], Realized.scalar 2] : List Realized).get ⟨i, hv⟩ =
          .scalar x) ∧
      (ndim (([{ root := .read 0 0 3 .f64, layout := [3] },
        { root := .reduce .rmin (.read 0 0 3 .f64), layout := [1] }] :
          List ChunkedArray).get ⟨i, ha⟩).root ≠ 0 →
        ∃ l : List Int, ([Realized.arr [5, 2, 7], Realized.scalar 2] : List Realized).get ⟨i, hv⟩ =
          .arr l)) :=
  C10_batched_compute (fun f => if f = 0 then some [5, 2, 7] else none)
    [{ root := .read 0 0 3 .f64, layout := [3] },
     { root := .reduce .rmin (.read 0 0 3 .f64), layout := [1] }]
    (freshCache 1000) (fun e he => absurd he (List.not_mem_nil e))
    [Realized.arr [5, 2, 7], Realized.scalar 2]
    ((evaluate (fun f => if f = 0 then some [5, 2, 7] else none)
      [{ root := .read 0 0 3 .f64, layout := [3] },
       { root := .reduce .rmin (.read 0 0 3 .f64), layout := [1] }] (freshCache 1000)).2)
    rfl

/-- C1: evaluation is deterministic.  From any coherent cache (the empty
cache included), running the batched evaluator twice yields bit-identical
results — the second run reuses cached chunks yet returns exactly the
first run's output; any two nodes with equal fingerprints have equal
denotations (fingerprints are collision-free structural hashes); and chunk
reductions accumulate in the fixed left-to-right chunk-index order, which
coincides with the flat left-to-right element order. -/
theorem C1_deterministic_evaluation (st : Storage) (args : List ChunkedArray)
    (c : GlobalCache) (hcoh : coherent st c) :
    ((evaluate st args c).1 = (evaluate st args ((evaluate st args c).2)).1) ∧
    (∀ m n : TaskNode, fingerprint m = fingerprint n → denote st m = denote st n) ∧
    (∀ (x : TaskNode) (v : Chunks), denote st x = .ok v →
      denote st (.reduce .rsum x) =
        .ok [[v.foldl (fun acc ch => ch.foldl (· + ·) acc) 0]] ∧
      v.foldl (fun acc ch => ch.foldl (· + ·) acc) 0 = v.flatten.foldl (· + ·) 0) := by
  refine ⟨?_, ?_, ?_⟩
  · cases h1 : evalList st (args.map ChunkedArray.root) { cache := c, log := [] } with
    | ok p =>
      rcases p with ⟨vs, s1⟩
      have hs := (evalList_sound st (args.map ChunkedArray.root) _ hcoh).1 vs s1 h1
      have he1 : evaluate st args c = (.ok vs, s1.cache) := by
        unfold evaluate
        rw [h1]
      rw [he1]
      cases h2 : evalList st (args.map ChunkedArray.root) { cache := s1.cache, log := [] } with
      | ok q =>
        rcases q with ⟨vs2, s2⟩
        have hs2 := (evalList_sound st (args.map ChunkedArray.root)
          { cache := s1.cache, log := [] } hs.2).1 vs2 s2 h2
        have he2 : evaluate st args s1.cache = (.ok vs2, s2.cache) := by
          unfold evaluate
          rw [h2]
        have hv : vs = vs2 := by
          have := hs.1.symm.trans hs2.1
          simpa using this
        show (Except.ok vs : Except EvalError (List Realized)) = (evaluate st args s1.cache).1
        rw [he2, hv]
      | error e2 =>
        have hd2 := (evalList_sound st (args.map ChunkedArray.root)
          { cache := s1.cache, log := [] } hs.2).2 e2 h2
        rw [hs.1] at hd2
        exact absurd hd2 (by simp)
    | error e =>
      have hd := (evalList_sound st (args.map ChunkedArray.root) _ hcoh).2 e h1
      have he1 : evaluate st args c = (.error e, c) := by
        unfold evaluate
        rw [h1]
      rw [he1]
      show (Except.error e : Except EvalError (List Realized)) = (evaluate st args c).1
      rw [he1]
  · intro m n h
    rw [fingerprint_inj h]
  · intro x v h
    constructor
    · simp only [denote, h, execReduce]
    · exact chunkFoldl_eq_flatten (· + ·) 0 v

/-- C1 witness: evaluating a concrete min-reduction twice over one shared
cache returns identical results both times. -/
theorem C1_deterministic_witness :
    ((evaluate (fun f => if f = 0 then some [4, 1, 3] else none)
        [{ root := .reduce .rmin (.read 0 0 3 .f64), layout := [1] }] (freshCache 500)).1 =
      (evaluate (fun f => if f = 0 then some [4, 1, 3] else none)
        [{ root := .reduce .rmin (.read 0 0 3 .f64), layout := [1] }]
        ((evaluate (fun f => if f = 0 then some [4, 1, 3] else none)
          [{ root := .reduce .rmin (.read 0 0 3 .f64), layout := [1] }]
          (freshCache 500)).2)).1) ∧
    (∀ m n : TaskNode, fingerprint m = fingerprint n →
      denote (fun f => if f = 0 then some [4, 1, 3] else none) m =
        denote (fun f => if f = 0 then some [4, 1, 3] else none) n) ∧
    (∀ (x : TaskNode) (v : Chunks),
      denote (fun f => if f = 0 then some [4, 1, 3] else none) x = .ok v →
      denote (fun f => if f = 0 then some [4, 1, 3] else none) (.reduce .rsum x) =
        .ok [[v.foldl (fun acc ch => ch.foldl (· + ·) acc) 0]] ∧
      v.foldl (fun acc ch => ch.foldl (· + ·) acc) 0 = v.flatten.foldl (· + ·) 0) :=
  C1_deterministic_evaluation (fun f => if f = 0 then some [4, 1, 3] else none)
    [{ root := .reduce .rmin (.read 0 0 3 .f64), layout := [1] }] (freshCache 500)
    (fun e he => absurd he (List.not_mem_nil e))

/-- C6: evaluation-error atomicity.  A failing `evaluate` call returns the
caller's cache unchanged (nothing is cached for the failed work); a leaf
read failure surfaces an I/O error tagged with the offending file and
range; an operation failure (division by a zero element) surfaces a
computation error tagged with the operation and the node's fingerprint;
and the first failing node aborts the whole call with exactly that error —
no partial results are returned. -/
theorem C6_error_atomicity (st : Storage) (args : List ChunkedArray) (c : GlobalCache) :
    (∀ er, (evaluate st args c).1 = .error er → (evaluate st args c).2 = c) ∧
    (∀ f a b dt, readRange st f a b = none →
      denote st (.read f a b dt) = .error (.ioError f a b)) ∧
    (∀ (x y : TaskNode) (va vb : Chunks), denote st x = .ok va → denote st y = .ok vb →
      (0 : Int) ∈ vb.flatten →
      denote st (.map2 .div x y) =
        .error (.computationError .divZero (fingerprint (.map2 .div x y)))) ∧
    (coherent st c → ∀ er, denoteList st (args.map ChunkedArray.root) = .error er →
      evaluate st args c = (.error er, c)) := by
  refine ⟨?_, ?_, ?_, ?_⟩
  · intro er her
    unfold evaluate at her ⊢
    cases h1 : evalList st (args.map ChunkedArray.root) { cache := c, log := [] } with
    | ok p =>
      rcases p with ⟨vs, s1⟩
      rw [h1] at her
      exact absurd her (by simp)
    | error e => rfl
  · intro f a b dt hr
    simp only [denote, hr]
  · intro x y va vb hx hy hz
    simp only [denote, hx, hy]
    unfold execMap2
    rw [if_pos ⟨rfl, hz⟩]
  · intro hcoh er hder
    unfold evaluate
    cases h1 : evalList st (args.map ChunkedArray.root) { cache := c, log := [] } with
    | ok p =>
      rcases p with ⟨vs, s1⟩
      have := ((evalList_sound st (args.map ChunkedArray.root) _ hcoh).1 vs s1 h1).1
      rw [hder] at this
      exact absurd this (by simp)
    | error e =>
      have := (evalList_sound st (args.map ChunkedArray.root) _ hcoh).2 e h1
      rw [hder] at this
      simp only [Except.error.injEq] at this
      rw [this]

/-- C6 witness: evaluating a read of a missing file aborts the whole call
with an I/O error tagged with the file and range, and hands the caller's
cache back untouched. -/
theorem C6_error_atomicity_witness :
    ((∀ er, (evaluate (fun _ => none) [{ root := .read 0 0 3 .f64, layout := [3] }]
        (freshCache 100)).1 = .error er →
      (evaluate (fun _ => none) [{ root := .read 0 0 3 .f64, layout := [3] }]
        (freshCache 100)).2 = freshCache 100) ∧
     (∀ f a b dt, readRange (fun _ => none) f a b = none →
      denote (fun _ => none) (.read f a b dt) = .error (.ioError f a b)) ∧
     (∀ (x y : TaskNode) (va vb : Chunks), denote (fun _ => none) x = .ok va →
      denote (fun _ => none) y = .ok vb → (0 : Int) ∈ vb.flatten →
      denote (fun _ => none) (.map2 .div x y) =
        .error (.computationError .divZero (fingerprint (.map2 .div x y)))) ∧
     (coherent (fun _ => none) (freshCache 100) →
      ∀ er, denoteList (fun _ => none)
          (([{ root := .read 0 0 3 .f64, layout := [3] }] : List ChunkedArray).map
            ChunkedArray.root) = .error er →
      evaluate (fun _ => none) [{ root := .read 0 0 3 .f64, layout := [3] }]
        (freshCache 100) = (.error er, freshCache 100))) ∧
    (evaluate (fun _ => none) [{ root := .read 0 0 3 .f64, layout := [3] }]
      (freshCache 100)).1 = .error (.ioError 0 0 3) :=
  ⟨C6_error_atomicity (fun _ => none) [{ root := .read 0 0 3 .f64, layout := [3] }]
    (freshCache 100), rfl⟩

/-- C9: ChunkedArray immutability (frame property).  The notebook's
rescaling (`pos * BoxSize`) is a pure algebraic operation: it returns a
NEW ChunkedArray whose root is a fresh node wrapping the old root (never
equal to it), the layout is carried over unchanged, and the existing
array's fields are untouched.  The new root denotes the pointwise-rescaled
data, while a reduction node built over the ORIGINAL root still reduces
the original (un-rescaled) chunks — building the rescaled array has no
effect on graphs built earlier. -/
theorem C9_immutability_frame (a : ChunkedArray) (k : Int) (st : Storage) (rop : RedOp) :
    (rescale k a).root = TaskNode.mapScalar .mul k a.root ∧
    (rescale k a).root ≠ a.root ∧
    (rescale k a).layout = a.layout ∧
    (∀ v, denote st a.root = .ok v →
      denote st ((rescale k a).root) = .ok (v.map (List.map (fun x => x * k)))) ∧
    (∀ v, denote st a.root = .ok v →
      denote st (.reduce rop a.root) =
        execReduce rop (fingerprint (.reduce rop a.root)) v) := by
  refine ⟨rfl, ?_, rfl, ?_, ?_⟩
  · intro h
    have h2 := congrArg nodeDepth h
    simp only [nodeDepth] at h2
    omega
  · intro v hv
    show denote st (.mapScalar .mul k a.root) = _
    simp only [denote, hv]
    unfold execScalar
    rw [if_neg (by simp)]
    rfl
  · intro v hv
    simp only [denote, hv]

/-- C9 witness: with concrete 3-row data and factor 2500, the rescaled
array is a new node over the same layout, its minimum is the rescaled
minimum, while the reduction built over the original root still evaluates
to the original (un-rescaled) minimum. -/
theorem C9_immutability_witness :
    ((rescale 2500 { root := .read 0 0 3 .f64, layout := [3] }).root =
        TaskNode.mapScalar .mul 2500 ({ root := .read 0 0 3 .f64, layout := [3] } :
          ChunkedArray).root ∧
      (rescale 2500 { root := .read 0 0 3 .f64, layout := [3] }).root ≠
        ({ root := .read 0 0 3 .f64, layout := [3] } : ChunkedArray).root ∧
      (rescale 2500 { root := .read 0 0 3 .f64, layout := [3] }).layout =
        ({ root := .read 0 0 3 .f64, layout := [3] } : ChunkedArray).layout ∧
      (∀ v, denote (fun f => if f = 0 then some [5, 2, 7] else none)
          ({ root := .read 0 0 3 .f64, layout := [3] } : ChunkedArray).root = .ok v →
        denote (fun f => if f = 0 then some [5, 2, 7] else none)
            ((rescale 2500 { root := .read 0 0 3 .f64, layout := [3] }).root) =
          .ok (v.map (List.map (fun x => x * 2500)))) ∧
      (∀ v, denote (fun f => if f = 0 then some [5, 2, 7] else none)
          ({ root := .read 0 0 3 .f64, layout := [3] } : ChunkedArray).root = .ok v →
        denote (fun f => if f = 0 then some [5, 2, 7] else none)
            (.reduce .rmin ({ root := .read 0 0 3 .f64, layout := [3] } : ChunkedArray).root) =
          execReduce .rmin
            (fingerprint (.reduce .rmin ({ root := .read 0 0 3 .f64, layout := [3] } :
              ChunkedArray).root)) v)) ∧
    realizeRoot (fun f => if f = 0 then some [5, 2, 7] else none)
        (.reduce .rmin ({ root := .read 0 0 3 .f64, layout := [3] } : ChunkedArray).root) =
      .ok (.scalar 2) ∧
    realizeRoot (fun f => if f = 0 then some [5, 2, 7] else none)
        (.reduce .rmin (rescale 2500 { root := .read 0 0 3 .f64, layout := [3] }).root) =
      .ok (.scalar 5000) :=
  ⟨C9_immutability_frame { root := .read 0 0 3 .f64, layout := [3] } 2500
      (fun f => if f = 0 then some [5, 2, 7] else none) .rmin, rfl, rfl⟩

/-! ### C7 supporting lemma: static layout inference is sound -/

/-- The eagerly inferred chunk layout of a well-formed graph is exactly
the chunk layout of its evaluated result: shape/dtype inference done at
construction time never disagrees with evaluation. -/
theorem denote_layout (st : Storage) :
    ∀ (n : TaskNode), wfB n = true → ∀ v, denote st n = .ok v →
      v.map List.length = nlayout n := by
  intro n
  induction n with
  | read f a b dt =>
    intro hwf v h
    cases hr : readRange st f a b with
    | none =>
      simp only [denote, hr] at h
      exact absurd h (by simp)
    | some rows =>
      simp only [denote, hr, Except.ok.injEq] at h
      subst h
      cases hst : st f with
      | none =>
        simp only [readRange, hst] at hr
        exact absurd hr (by simp)
      | some rows0 =>
        simp only [readRange, hst] at hr
        split at hr
        next hcond =>
          simp only [Option.some.injEq] at hr
          subst hr
          simp only [List.map_cons, List.map_nil, nlayout]
          congr 1
          rw [List.length_take, List.length_drop]
          omega
        next hcond => exact absurd hr (by simp)
  | map2 op x y ihx ihy =>
    intro hwf v h
    simp only [wfB, Bool.and_eq_true, decide_eq_true_eq] at hwf
    obtain ⟨⟨hlay, hwx⟩, hwy⟩ := hwf
    cases hx : denote st x with
    | error e =>
      simp only [denote, hx] at h
      exact absurd h (by simp)
    | ok va =>
      cases hy : denote st y with
      | error e =>
        simp only [denote, hx, hy] at h
        exact absurd h (by simp)
      | ok vb =>
        simp only [denote, hx, hy] at h
        unfold execMap2 at h
        split at h
        · exact absurd h (by simp)
        · simp only [Except.ok.injEq] at h
          subst h
          have h1 := ihx hwx va hx
          have h2 := ihy hwy vb hy
          rw [lens_zipWith (binopFn op) va vb (by rw [h1, h2, hlay]), h1]
          simp [nlayout]
  | mapScalar op k x ihx =>
    intro hwf v h
    simp only [wfB] at hwf
    cases hx : denote st x with
    | error e =>
      simp only [denote, hx] at h
      exact absurd h (by simp)
    | ok va =>
      simp only [denote, hx] at h
      unfold execScalar at h
      split at h
      · exact absurd h (by simp)
      · simp only [Except.ok.injEq] at h
        subst h
        rw [List.map_map]
        have hcomp : (List.length ∘ List.map (fun z => binopFn op z k)) =
            (List.length : List Int → Nat) := by
          funext cch
          simp
        rw [hcomp, ihx hwf va hx]
        simp [nlayout]
  | reduce op x ihx =>
    intro hwf v h
    cases hx : denote st x with
    | error e =>
      simp only [denote, hx] at h
      exact absurd h (by simp)
    | ok va =>
      simp only [denote, hx] at h
      cases op with
      | rsum =>
        simp only [execReduce, Except.ok.injEq] at h
        subst h
        simp [nlayout]
      | rmin =>
        simp only [execReduce] at h
        cases hf : va.foldl (fun acc c => c.foldl (redStep min) acc) none with
        | none => rw [hf] at h; exact absurd h (by simp)
        | some m =>
          rw [hf] at h
          simp only [Except.ok.injEq] at h
          subst h
          simp [nlayout]
      | rmax =>
        simp only [execReduce] at h
        cases hf : va.foldl (fun acc c => c.foldl (redStep max) acc) none with
        | none => rw [hf] at h; exact absurd h (by simp)
        | some m =>
          rw [hf] at h
          simp only [Except.ok.injEq] at h
          subst h
          simp [nlayout]
  | concat x y ihx ihy =>
    intro hwf v h
    simp only [wfB, Bool.and_eq_true] at hwf
    obtain ⟨hwx, hwy⟩ := hwf
    cases hx : denote st x with
    | error e =>
      simp only [denote, hx] at h
      exact absurd h (by simp)
    | ok va =>
      cases hy : denote st y with
      | error e =>
        simp only [denote, hx, hy] at h
        exact absurd h (by simp)
      | ok vb =>
        simp only [denote, hx, hy, Except.ok.injEq] at h
        subst h
        simp only [List.map_append, nlayout]
        rw [ihx hwx va hx, ihy hwy vb hy]
  | slice i j x ihx =>
    intro hwf v h
    simp only [wfB] at hwf
    cases hx : denote st x with
    | error e =>
      simp only [denote, hx] at h
      exact absurd h (by simp)
    | ok va =>
      simp only [denote, hx, Except.ok.injEq] at h
      subst h
      simp only [List.map_cons, List.map_nil, nlayout]
      congr 1
      rw [List.length_take, List.length_drop, List.length_flatten, ihx hwf va hx]

/-- C7: eager graph validation.  An elementwise combination of operands
with mismatched shapes is rejected at construction time with
`ShapeMismatchError`; mismatched or forbidden dtypes are rejected with
`DtypeError`; evaluation is never attempted and no chunk is read — the
constructors never touch storage.  A successful construction carries the
eagerly inferred metadata, and that static inference is sound: for every
well-formed graph the inferred layout matches the evaluated layout
exactly, so inference is never deferred to evaluation. -/
theorem C7_eager_validation (a b : ChunkedArray) (op : BinOp) (st : Storage) :
    (a.layout.sum ≠ b.layout.sum →
      mkMap2 op a b = .error (.shapeMismatch a.layout.sum b.layout.sum)) ∧
    (a.layout = b.layout → ndtype a.root ≠ ndtype b.root →
      mkMap2 op a b = .error (.dtypeError (ndtype a.root) (ndtype b.root))) ∧
    (a.layout = b.layout → ndtype a.root = ndtype b.root → op = .div →
      ndtype a.root = .i64 →
      mkMap2 op a b = .error (.dtypeError (ndtype a.root) (ndtype b.root))) ∧
    (∀ g, mkMap2 op a b = .ok g → g.root = .map2 op a.root b.root ∧ g.layout = a.layout ∧
      (validCA a → validCA b → validCA g)) ∧
    (∀ (n : TaskNode) (v : Chunks), wfB n = true → denote st n = .ok v →
      v.map List.length = nlayout n) := by
  refine ⟨?_, ?_, ?_, ?_, ?_⟩
  · intro hsum
    unfold mkMap2
    rw [if_pos (fun h => hsum (by rw [h]))]
  · intro hlay hdt
    unfold mkMap2
    rw [if_neg (fun h => h hlay), if_pos hdt]
  · intro hlay hdt hop hi64
    unfold mkMap2
    rw [if_neg (fun h => h hlay), if_neg (fun h => h hdt), if_pos ⟨hop, hi64⟩]
  · intro g hg
    unfold mkMap2 at hg
    split at hg
    · exact absurd hg (by simp)
    · split at hg
      · exact absurd hg (by simp)
      · split at hg
        · exact absurd hg (by simp)
        · next hlayne hdtne hdivne =>
          simp only [Except.ok.injEq] at hg
          subst hg
          have hlay : a.layout = b.layout := not_not.1 hlayne
          refine ⟨rfl, rfl, ?_⟩
          intro hva hvb
          obtain ⟨hla, hwa⟩ := hva
          obtain ⟨hlb, hwb⟩ := hvb
          constructor
          · show a.layout = nlayout (.map2 op a.root b.root)
            simp only [nlayout]
            exact hla
          · show wfB (.map2 op a.root b.root) = true
            simp only [wfB, Bool.and_eq_true, decide_eq_true_eq]
            refine ⟨⟨?_, hwa⟩, hwb⟩
            rw [← hla, ← hlb]
            exact hlay
  · intro n v hwf hok
    exact denote_layout st n hwf v hok

/-- C7 witness: combining a 3-row column with a 2-row column is rejected
at construction time with a `ShapeMismatchError` carrying both shapes. -/
theorem C7_eager_validation_witness :
    (({ root := .read 0 0 3 .f64, layout := [3] } : ChunkedArray).layout.sum ≠
        ({ root := .read 1 0 2 .f64, layout := [2] } : ChunkedArray).layout.sum) ∧
    mkMap2 .add { root := .read 0 0 3 .f64, layout := [3] }
        { root := .read 1 0 2 .f64, layout := [2] } =
      .error (.shapeMismatch 3 2) :=
  ⟨by decide,
    (C7_eager_validation { root := .read 0 0 3 .f64, layout := [3] }
      { root := .read 1 0 2 .f64, layout := [2] } .add (fun _ => none)).1 (by decide)⟩

/-! ### C8 supporting lemmas: multi-file equivalence -/

theorem readRange_full {st : Storage} {f : Nat} {rows : List Int} (h : st f = some rows) :
    readRange st f 0 rows.length = some rows := by
  simp only [readRange, h]
  rw [if_pos ⟨Nat.zero_le _, le_refl _⟩]
  simp

theorem ndim_apply {r1 r2 : TaskNode} (h : ndim r1 = ndim r2) :
    ∀ ch : Chain, ndim (ch.apply r1) = ndim (ch.apply r2) := by
  intro ch
  induction ch with
  | base => exact h
  | scalarOp op k c ihc =>
    simp only [Chain.apply, ndim]
    exact ihc
  | zipOp op c d ihc ihd =>
    simp only [Chain.apply, ndim]
    exact ihc
  | reduceOp op c ihc => simp only [Chain.apply, ndim]

/-- Core equivalence: over two base nodes whose realized chunks flatten to
the same rows, every constructible operation chain either fails on both
sides or succeeds on both sides with results that flatten identically and
carry the statically expected layouts. -/
theorem chain_equiv (st : Storage) {r1 r2 : TaskNode} {w1 w2 : Chunks} {b1 b2 : List Nat}
    (h1 : denote st r1 = .ok w1) (h2 : denote st r2 = .ok w2)
    (hjoin : w1.flatten = w2.flatten)
    (hl1 : w1.map List.length = b1) (hl2 : w2.map List.length = b2) :
    ∀ ch : Chain, chainOK b1 b2 ch = true →
      ((∃ e1, denote st (ch.apply r1) = .error e1) ∧
       (∃ e2, denote st (ch.apply r2) = .error e2)) ∨
      (∃ v1 v2, denote st (ch.apply r1) = .ok v1 ∧ denote st (ch.apply r2) = .ok v2 ∧
        v1.flatten = v2.flatten ∧
        v1.map List.length = chainLens b1 ch ∧ v2.map List.length = chainLens b2 ch) := by
  intro ch
  induction ch with
  | base =>
    intro hok
    exact Or.inr ⟨w1, w2, h1, h2, hjoin, hl1, hl2⟩
  | scalarOp op k c ihc =>
    intro hok
    rcases ihc hok with ⟨⟨e1, he1⟩, ⟨e2, he2⟩⟩ | ⟨v1, v2, hv1, hv2, hj, hL1, hL2⟩
    · exact Or.inl ⟨⟨e1, by simp only [Chain.apply, denote, he1]⟩,
        ⟨e2, by simp only [Chain.apply, denote, he2]⟩⟩
    · by_cases hdiv : op = BinOp.div ∧ k = 0
      · refine Or.inl ⟨⟨.computationError .divZero
            (fingerprint (.mapScalar op k (c.apply r1))), ?_⟩,
          ⟨.computationError .divZero (fingerprint (.mapScalar op k (c.apply r2))), ?_⟩⟩
        · simp only [Chain.apply, denote, hv1]
          unfold execScalar
          rw [if_pos hdiv]
        · simp only [Chain.apply, denote, hv2]
          unfold execScalar
          rw [if_pos hdiv]
      · have hcomp : (List.length ∘ List.map (fun z => binopFn op z k)) =
            (List.length : List Int → Nat) := by
          funext cch
          simp
        refine Or.inr ⟨v1.map (List.map (fun z => binopFn op z k)),
          v2.map (List.map (fun z => binopFn op z k)), ?_, ?_, ?_, ?_, ?_⟩
        · simp only [Chain.apply, denote, hv1]
          unfold execScalar
          rw [if_neg hdiv]
        · simp only [Chain.apply, denote, hv2]
          unfold execScalar
          rw [if_neg hdiv]
        · rw [← List.map_flatten, ← List.map_flatten, hj]
        · rw [List.map_map, hcomp]
          exact hL1
        · rw [List.map_map, hcomp]
          exact hL2
  | zipOp op c d ihc ihd =>
    intro hok
    simp only [chainOK, Bool.and_eq_true, decide_eq_true_eq] at hok
    obtain ⟨⟨⟨hcok, hdok⟩, hlens1⟩, hlens2⟩ := hok
    rcases ihc hcok with ⟨⟨e1, hce1⟩, ⟨e2, hce2⟩⟩ | ⟨vc1, vc2, hvc1, hvc2, hcj, hcL1, hcL2⟩
    · exact Or.inl ⟨⟨e1, by simp only [Chain.apply, denote, hce1]⟩,
        ⟨e2, by simp only [Chain.apply, denote, hce2]⟩⟩
    · rcases ihd hdok with ⟨⟨e1, hde1⟩, ⟨e2, hde2⟩⟩ | ⟨vd1, vd2, hvd1, hvd2, hdj, hdL1, hdL2⟩
      · exact Or.inl ⟨⟨e1, by simp only [Chain.apply, denote, hvc1, hde1]⟩,
          ⟨e2, by simp only [Chain.apply, denote, hvc2, hde2]⟩⟩
      · by_cases hz : op = BinOp.div ∧ (0 : Int) ∈ vd1.flatten
        · refine Or.inl ⟨⟨.computationError .divZero
              (fingerprint (.map2 op (c.apply r1) (d.apply r1))), ?_⟩,
            ⟨.computationError .divZero
              (fingerprint (.map2 op (c.apply r2) (d.apply r2))), ?_⟩⟩
          · simp only [Chain.apply, denote, hvc1, hvd1]
            unfold execMap2
            rw [if_pos hz]
          · have hz2 : op = BinOp.div ∧ (0 : Int) ∈ vd2.flatten :=
              ⟨hz.1, by rw [← hdj]; exact hz.2⟩
            simp only [Chain.apply, denote, hvc2, hvd2]
            unfold execMap2
            rw [if_pos hz2]
        · have hz2 : ¬(op = BinOp.div ∧ (0 : Int) ∈ vd2.flatten) := by
            intro hcontra
            exact hz ⟨hcontra.1, by rw [hdj]; exact hcontra.2⟩
          have hlcd1 : vc1.map List.length = vd1.map List.length := by
            rw [hcL1, hdL1, hlens1]
          have hlcd2 : vc2.map List.length = vd2.map List.length := by
            rw [hcL2, hdL2, hlens2]
          refine Or.inr ⟨List.zipWith (fun ca cb => List.zipWith (binopFn op) ca cb) vc1 vd1,
            List.zipWith (fun ca cb => List.zipWith (binopFn op) ca cb) vc2 vd2,
            ?_, ?_, ?_, ?_, ?_⟩
          · simp only [Chain.apply, denote, hvc1, hvd1]
            unfold execMap2
            rw [if_neg hz]
          · simp only [Chain.apply, denote, hvc2, hvd2]
            unfold execMap2
            rw [if_neg hz2]
          · rw [flatten_zipWith (binopFn op) vc1 vd1 hlcd1,
              flatten_zipWith (binopFn op) vc2 vd2 hlcd2, hcj, hdj]
          · rw [lens_zipWith (binopFn op) vc1 vd1 hlcd1]
            exact hcL1
          · rw [lens_zipWith (binopFn op) vc2 vd2 hlcd2]
            exact hcL2
  | reduceOp op c ihc =>
    intro hok
    rcases ihc hok with ⟨⟨e1, he1⟩, ⟨e2, he2⟩⟩ | ⟨v1, v2, hv1, hv2, hj, hL1, hL2⟩
    · exact Or.inl ⟨⟨e1, by simp only [Chain.apply, denote, he1]⟩,
        ⟨e2, by simp only [Chain.apply, denote, he2]⟩⟩
    · cases op with
      | rsum =>
        have hfold : v1.foldl (fun acc cch => cch.foldl (· + ·) acc) 0 =
            v2.foldl (fun acc cch => cch.foldl (· + ·) acc) 0 := by
          rw [chunkFoldl_eq_flatten, chunkFoldl_eq_flatten, hj]
        refine Or.inr ⟨[[v1.foldl (fun acc cch => cch.foldl (· + ·) acc) 0]],
          [[v2.foldl (fun acc cch => cch.foldl (· + ·) acc) 0]], ?_, ?_, ?_, rfl, rfl⟩
        · simp only [Chain.apply, denote, hv1, execReduce]
        · simp only [Chain.apply, denote, hv2, execReduce]
        · simp [hfold]
      | rmin =>
        have hfold : v1.foldl (fun acc cch => cch.foldl (redStep min) acc) none =
            v2.foldl (fun acc cch => cch.foldl (redStep min) acc) none := by
          rw [chunkFoldl_eq_flatten, chunkFoldl_eq_flatten, hj]
        cases hf : v1.foldl (fun acc cch => cch.foldl (redStep min) acc) none with
        | none =>
          have hf2 := hfold.symm.trans hf
          refine Or.inl ⟨⟨.computationError .emptyMin
              (fingerprint (.reduce .rmin (c.apply r1))), ?_⟩,
            ⟨.computationError .emptyMin (fingerprint (.reduce .rmin (c.apply r2))), ?_⟩⟩
          · simp only [Chain.apply, denote, hv1, execReduce, hf]
          · simp only [Chain.apply, denote, hv2, execReduce, hf2]
        | some m =>
          have hf2 := hfold.symm.trans hf
          refine Or.inr ⟨[[m]], [[m]], ?_, ?_, rfl, rfl, rfl⟩
          · simp only [Chain.apply, denote, hv1, execReduce, hf]
          · simp only [Chain.apply, denote, hv2, execReduce, hf2]
      | rmax =>
        have hfold : v1.foldl (fun acc cch => cch.foldl (redStep max) acc) none =
            v2.foldl (fun acc cch => cch.foldl (redStep max) acc) none := by
          rw [chunkFoldl_eq_flatten, chunkFoldl_eq_flatten, hj]
        cases hf : v1.foldl (fun acc cch => cch.foldl (redStep max) acc) none with
        | none =>
          have hf2 := hfold.symm.trans hf
          refine Or.inl ⟨⟨.computationError .emptyMax
              (fingerprint (.reduce .rmax (c.apply r1))), ?_⟩,
            ⟨.computationError .emptyMax (fingerprint (.reduce .rmax (c.apply r2))), ?_⟩⟩
          · simp only [Chain.apply, denote, hv1, execReduce, hf]
          · simp only [Chain.apply, denote, hv2, execReduce, hf2]
        | some m =>
          have hf2 := hfold.symm.trans hf
          refine Or.inr ⟨[[m]], [[m]], ?_, ?_, rfl, rfl, rfl⟩
          · simp only [Chain.apply, denote, hv1, execReduce, hf]
          · simp only [Chain.apply, denote, hv2, execReduce, hf2]

/-- C8: multi-file equivalence.  A CatalogView over files `[A, B]` and a
CatalogView over one pre-concatenated file with identical combined
contents produce identical `evaluate` results for the same column and any
constructible operation chain. -/
theorem C8_multi_file_equivalence (st : Storage) (fa fb fc : Nat) (as bs : List Int)
    (dt : DType) (ha : st fa = some as) (hb : st fb = some bs)
    (hc : st fc = some (as ++ bs)) (ch : Chain)
    (hok : chainOK [as.length, bs.length] [as.length + bs.length] ch = true)
    (r : Realized) :
    realizeRoot st (ch.apply
        (CatalogView.column { files := [(fa, as.length), (fb, bs.length)], dt := dt }).root) =
      .ok r ↔
    realizeRoot st (ch.apply
        (CatalogView.column { files := [(fc, as.length + bs.length)], dt := dt }).root) =
      .ok r := by
  have hroot1 : (CatalogView.column
      { files := [(fa, as.length), (fb, bs.length)], dt := dt }).root =
      TaskNode.concat (.read fa 0 as.length dt) (.read fb 0 bs.length dt) := rfl
  have hroot2 : (CatalogView.column { files := [(fc, as.length + bs.length)], dt := dt }).root =
      TaskNode.read fc 0 (as.length + bs.length) dt := rfl
  rw [hroot1, hroot2]
  have hw1 : denote st (TaskNode.concat (.read fa 0 as.length dt) (.read fb 0 bs.length dt)) =
      .ok [as, bs] := by
    simp only [denote, readRange_full ha, readRange_full hb]
    rfl
  have hw2 : denote st (TaskNode.read fc 0 (as.length + bs.length) dt) = .ok [as ++ bs] := by
    have hrr := readRange_full hc
    rw [List.length_append] at hrr
    simp only [denote, hrr]
  rcases @chain_equiv st (TaskNode.concat (.read fa 0 as.length dt) (.read fb 0 bs.length dt))
      (TaskNode.read fc 0 (as.length + bs.length) dt) [as, bs] [as ++ bs]
      [as.length, bs.length] [as.length + bs.length] hw1 hw2 (by simp) (by simp)
      (by simp) ch hok with
    ⟨⟨e1, he1⟩, ⟨e2, he2⟩⟩ | ⟨v1, v2, hv1, hv2, hj, hL1, hL2⟩
  · constructor
    · intro hr
      simp only [realizeRoot, he1] at hr
      exact absurd hr (by simp)
    · intro hr
      simp only [realizeRoot, he2] at hr
      exact absurd hr (by simp)
  · have hnd := ndim_apply (by rfl :
      ndim (TaskNode.concat (.read fa 0 as.length dt) (.read fb 0 bs.length dt)) =
      ndim (TaskNode.read fc 0 (as.length + bs.length) dt)) ch
    have hass : assemble (ch.apply (TaskNode.concat (.read fa 0 as.length dt)
        (.read fb 0 bs.length dt))) v1 =
        assemble (ch.apply (TaskNode.read fc 0 (as.length + bs.length) dt)) v2 := by
      unfold assemble
      rw [hnd, hj]
    constructor
    · intro hr
      simp only [realizeRoot, hv1] at hr
      simp only [realizeRoot, hv2]
      rw [← hass]
      exact hr
    · intro hr
      simp only [realizeRoot, hv2] at hr
      simp only [realizeRoot, hv1]
      rw [hass]
      exact hr

/-- C8 witness: min over a 2-row file plus a 1-row file equals min over
the pre-concatenated 3-row file. -/
theorem C8_multi_file_witness :
    (realizeRoot (fun f => if f = 0 then some [1, 2] else if f = 1 then some [3] else
        if f = 2 then some [1, 2, 3] else none)
      ((Chain.reduceOp .rmin .base).apply
        (CatalogView.column { files := [(0, ([1, 2] : List Int).length),
          (1, ([3] : List Int).length)], dt := .f64 }).root) = .ok (.scalar 1)) ↔
    (realizeRoot (fun f => if f = 0 then some [1, 2] else if f = 1 then some [3] else
        if f = 2 then some [1, 2, 3] else none)
      ((Chain.reduceOp .rmin .base).apply
        (CatalogView.column { files := [(2, ([1, 2] : List Int).length +
          ([3] : List Int).length)], dt := .f64 }).root) = .ok (.scalar 1)) :=
  C8_multi_file_equivalence
    (fun f => if f = 0 then some [1, 2] else if f = 1 then some [3] else
      if f = 2 then some [1, 2, 3] else none)
    0 1 2 [1, 2] [3] .f64 rfl rfl rfl (Chain.reduceOp .rmin .base) (by decide) (.scalar 1)

/-- Value component of a successful evaluation (an arbitrary default on
failure); lets concrete instances name evaluation results. -/
def evalValue (st : Storage) (n : TaskNode) (s : EvalState) : Chunks :=
  match evalNode st n s with
  | .ok (v, _) => v
  | .error _ => []

/-- State component of a successful evaluation (the input state on
failure). -/
def evalOutcome (st : Storage) (n : TaskNode) (s : EvalState) : EvalState :=
  match evalNode st n s with
  | .ok (_, s') => s'
  | .error _ => s

/-- C2: cache-hit avoidance of I/O.  Evaluating two graphs that share a
leaf against ONE GlobalCache instance — fresh, with capacity covering the
working set so the shared result is retained — invokes the shared leaf's
read exactly once across both evaluations (the leaf-read log counts it
once); and rerunning both evaluations afterwards hits the cache at the
roots, performing zero additional leaf reads (the log is unchanged). -/
theorem C2_shared_leaf_read_once (st : Storage) (g1 g2 : ChunkedArray)
    (lf la lb : Nat) (dt : DType) (cap : Nat)
    (hcap : budgetOf st g1.root + budgetOf st g2.root ≤ cap)
    (hin1 : TaskNode.read lf la lb dt ∈ subnodesList g1.root)
    (hin2 : TaskNode.read lf la lb dt ∈ subnodesList g2.root)
    (v1 : Chunks) (s1 : EvalState) (v2 : Chunks) (s2 : EvalState)
    (h1 : evalNode st g1.root { cache := freshCache cap, log := [] } = .ok (v1, s1))
    (h2 : evalNode st g2.root s1 = .ok (v2, s2)) :
    s2.log.count (TaskNode.read lf la lb dt) = 1 ∧
    (∃ v3 c3, evalNode st g1.root s2 = .ok (v3, { s2 with cache := c3 }) ∧
      ∃ v4 c4, evalNode st g2.root { s2 with cache := c3 } =
        .ok (v4, { s2 with cache := c4 })) := by
  have hcoh0 : coherent st (freshCache cap) := fun e he => absurd he (List.not_mem_nil e)
  have hcc0 : ccInv (freshCache cap) := by
    intro m hm
    simp [containsFpB, freshCache] at hm
  have hrl0 : readLogInv { cache := freshCache cap, log := [] } := by
    intro f a b dt0
    simp [containsFpB, freshCache]
  have hbud1 : usage ({ cache := freshCache cap, log := [] } : EvalState).cache +
      budgetOf st g1.root ≤ ({ cache := freshCache cap, log := [] } : EvalState).cache.capacityBytes := by
    show 0 + budgetOf st g1.root ≤ cap
    omega
  obtain ⟨m1_cap, m1_use, m1_mono, m1_cc, m1_rl, m1_self⟩ :=
    evalNode_master st g1.root { cache := freshCache cap, log := [] } v1 s1 hcoh0 hbud1 h1
  have hcoh1 : coherent st s1.cache :=
    ((evalNode_sound st g1.root { cache := freshCache cap, log := [] } hcoh0).1 v1 s1 h1).2
  have hzero : usage ({ cache := freshCache cap, log := [] } : EvalState).cache = 0 := rfl
  have hbud2 : usage s1.cache + budgetOf st g2.root ≤ s1.cache.capacityBytes := by
    rw [m1_cap]
    show usage s1.cache + budgetOf st g2.root ≤ cap
    omega
  obtain ⟨m2_cap, m2_use, m2_mono, m2_cc, m2_rl, m2_self⟩ :=
    evalNode_master st g2.root s1 v2 s2 hcoh1 hbud2 h2
  have hcc1 : ccInv s1.cache := m1_cc hcc0
  have hleaf1 : containsFpB s1.cache (fingerprint (.read lf la lb dt)) = true :=
    hcc1 g1.root m1_self _ hin1
  have hleaf2 : containsFpB s2.cache (fingerprint (.read lf la lb dt)) = true :=
    m2_mono _ hleaf1
  have hrl2 : readLogInv s2 := m2_rl (m1_rl hrl0)
  constructor
  · have hcount := hrl2 lf la lb dt
    rw [hleaf2] at hcount
    simpa using hcount
  · have hr1 : containsFpB s2.cache (fingerprint g1.root) = true := m2_mono _ m1_self
    obtain ⟨v3, c3, he3, hcont3⟩ := evalNode_rerun st g1.root s2 hr1
    refine ⟨v3, c3, he3, ?_⟩
    have hr2 : containsFpB c3 (fingerprint g2.root) = true := by
      rw [hcont3]
      exact m2_self
    obtain ⟨v4, c4, he4, -⟩ := evalNode_rerun st g2.root { s2 with cache := c3 } hr2
    exact ⟨v4, c4, he4⟩

/-- C2 witness: a concrete min-reduction and max-reduction over the same
2-row leaf, evaluated in sequence against one fresh cache: the leaf is
read exactly once, and rerunning both evaluations reads nothing more. -/
theorem C2_shared_leaf_witness :
    ((evalOutcome (fun f => if f = 0 then some [1, 2] else none)
        (TaskNode.reduce .rmax (.read 0 0 2 .f64))
        (evalOutcome (fun f => if f = 0 then some [1, 2] else none)
          (TaskNode.reduce .rmin (.read 0 0 2 .f64))
          { cache := freshCache 100, log := [] })).log.count
      (TaskNode.read 0 0 2 .f64) = 1) ∧
    (∃ v3 c3, evalNode (fun f => if f = 0 then some [1, 2] else none)
        (TaskNode.reduce .rmin (.read 0 0 2 .f64))
        (evalOutcome (fun f => if f = 0 then some [1, 2] else none)
          (TaskNode.reduce .rmax (.read 0 0 2 .f64))
          (evalOutcome (fun f => if f = 0 then some [1, 2] else none)
            (TaskNode.reduce .rmin (.read 0 0 2 .f64))
            { cache := freshCache 100, log := [] })) =
        .ok (v3, { (evalOutcome (fun f => if f = 0 then some [1, 2] else none)
          (TaskNode.reduce .rmax (.read 0 0 2 .f64))
          (evalOutcome (fun f => if f = 0 then some [1, 2] else none)
            (TaskNode.reduce .rmin (.read 0 0 2 .f64))
            { cache := freshCache 100, log := [] })) with cache := c3 }) ∧
      ∃ v4 c4, evalNode (fun f => if f = 0 then some [1, 2] else none)
          (TaskNode.reduce .rmax (.read 0 0 2 .f64))
          { (evalOutcome (fun f => if f = 0 then some [1, 2] else none)
            (TaskNode.reduce .rmax (.read 0 0 2 .f64))
            (evalOutcome (fun f => if f = 0 then some [1, 2] else none)
              (TaskNode.reduce .rmin (.read 0 0 2 .f64))
              { cache := freshCache 100, log := [] })) with cache := c3 } =
        .ok (v4, { (evalOutcome (fun f => if f = 0 then some [1, 2] else none)
          (TaskNode.reduce .rmax (.read 0 0 2 .f64))
          (evalOutcome (fun f => if f = 0 then some [1, 2] else none)
            (TaskNode.reduce .rmin (.read 0 0 2 .f64))
            { cache := freshCache 100, log := [] })) with cache := c4 })) :=
  C2_shared_leaf_read_once (fun f => if f = 0 then some [1, 2] else none)
    { root := .reduce .rmin (.read 0 0 2 .f64), layout := [1] }
    { root := .reduce .rmax (.read 0 0 2 .f64), layout := [1] }
    0 0 2 .f64 100 (by decide) (by decide) (by decide)
    (evalValue (fun f => if f = 0 then some [1, 2] else none)
      (TaskNode.reduce .rmin (.read 0 0 2 .f64)) { cache := freshCache 100, log := [] })
    (evalOutcome (fun f => if f = 0 then some [1, 2] else none)
      (TaskNode.reduce .rmin (.read 0 0 2 .f64)) { cache := freshCache 100, log := [] })
    (evalValue (fun f => if f = 0 then some [1, 2] else none)
      (TaskNode.reduce .rmax (.read 0 0 2 .f64))
      (evalOutcome (fun f => if f = 0 then some [1, 2] else none)
        (TaskNode.reduce .rmin (.read 0 0 2 .f64)) { cache := freshCache 100, log := [] }))
    (evalOutcome (fun f => if f = 0 then some [1, 2] else none)
      (TaskNode.reduce .rmax (.read 0 0 2 .f64))
      (evalOutcome (fun f => if f = 0 then some [1, 2] else none)
        (TaskNode.reduce .rmin (.read 0 0 2 .f64)) { cache := freshCache 100, log := [] }))
    rfl rfl

end NbodykitModel
